import Mathlib

/-!
# Verification of the CQM presolver core (`presolveimpl.hpp`)

A shallow embedding of `dwave::presolve::PresolverImpl<Bias, Index, Assignment>`
and its helper functions, followed by theorems settling the frozen claims.

Modelling conventions:
* C++ `double` biases are modelled by `F`, rationals extended with a NaN
  element.  Arithmetic propagates NaN; comparisons involving NaN are `false`
  (IEEE semantics, matching `std::isnan` guarded code paths).  The code never
  produces infinities on the paths the claims exercise; division by zero is
  mapped to NaN.
* Variable indices are `Nat`; the dense variable table is a `List Vinfo`.
* Expressions store their ordered variable list as the keys of the linear
  association list (dimod expressions keep a linear bias, defaulting to 0, for
  every variable they reference); quadratic biases are stored under normalized
  unordered-pair keys.
* Exceptions are modelled by threading an `Option Err` together with the
  mutated-so-far state, mirroring C++ exception propagation which leaves
  already-performed mutations in place.
* Operations of the external `dimod` CQM collaborator (declared in §6 of the
  spec but outside this repository) are defined following the spec text; each
  such definition carries a doc comment starting with `Modelled from the
  spec:`.
-/

namespace DwavePresolve

/-- `double` values as used by the presolver: a rational or NaN. -/
inductive F where
  | nan : F
  | fin (q : ℚ) : F
deriving DecidableEq, Repr

instance : Inhabited F := ⟨F.fin 0⟩

/-- IEEE addition restricted to finite values and NaN.  The rational sum is
written through `mkRat` so that the kernel can evaluate it; the lemma
`F_add_fin` below proves it coincides with `Rat` addition. -/
def F.add : F → F → F
  | F.fin a, F.fin b =>
      F.fin (mkRat (a.num * b.den + b.num * a.den) (a.den * b.den))
  | _, _ => F.nan

/-- IEEE multiplication restricted to finite values and NaN (`F_mul_fin`
proves this is `Rat` multiplication). -/
def F.mul : F → F → F
  | F.fin a, F.fin b => F.fin (mkRat (a.num * b.num) (a.den * b.den))
  | _, _ => F.nan

/-- IEEE subtraction restricted to finite values and NaN (`F_sub_fin`
proves this is `Rat` subtraction). -/
def F.sub : F → F → F
  | F.fin a, F.fin b =>
      F.fin (mkRat (a.num * b.den - b.num * a.den) (a.den * b.den))
  | _, _ => F.nan

/-- IEEE negation. -/
def F.neg : F → F
  | F.fin a => F.fin (-a)
  | F.nan => F.nan

/-- `std::abs`. -/
def F.abs : F → F
  | F.fin a => F.fin |a|
  | F.nan => F.nan

/-- IEEE division; division by zero (which the presolver never meaningfully
consumes) is collapsed to NaN (`F_div_fin` proves the nonzero case is `Rat`
division). -/
def F.div : F → F → F
  | F.fin a, F.fin b =>
      if b = 0 then F.nan
      else F.fin (Rat.divInt (a.num * b.den) (a.den * b.num))
  | _, _ => F.nan

theorem F_add_fin (a b : ℚ) : F.add (F.fin a) (F.fin b) = F.fin (a + b) := by
  rw [Rat.add_def']
  rfl

theorem F_sub_fin (a b : ℚ) : F.sub (F.fin a) (F.fin b) = F.fin (a - b) := by
  rw [Rat.sub_def']
  rfl

theorem F_mul_fin (a b : ℚ) : F.mul (F.fin a) (F.fin b) = F.fin (a * b) := by
  rw [Rat.mul_def, Rat.normalize_eq_mkRat]
  rfl

theorem F_div_fin (a b : ℚ) (hb : b ≠ 0) :
    F.div (F.fin a) (F.fin b) = F.fin (a / b) := by
  simp only [F.div, hb, if_false]
  congr 1
  rw [Rat.div_def, Rat.inv_def]
  conv_rhs => rw [← Rat.divInt_self a]
  rw [Rat.divInt_mul_divInt _ _
    (Int.natCast_ne_zero.mpr a.den_nz) (Rat.num_ne_zero.mpr hb)]

/-- C++ `<` on doubles: any comparison involving NaN is false. -/
def F.lt : F → F → Bool
  | F.fin a, F.fin b => a < b
  | _, _ => false

/-- C++ `==` on doubles: any comparison involving NaN is false. -/
def F.beq : F → F → Bool
  | F.fin a, F.fin b => a == b
  | _, _ => false

/-- C++ truthiness of a double (`if (x)`), true unless the value is `0.0`;
NaN is truthy. -/
def F.truthy : F → Bool
  | F.fin a => a != 0
  | F.nan => true

/-- `std::isnan`. -/
def F.isnan : F → Bool
  | F.nan => true
  | F.fin _ => false

/-- `std::floor`. -/
def F.floor : F → F
  | F.fin a => F.fin ⌊a⌋
  | F.nan => F.nan

/-- `std::ceil`. -/
def F.ceil : F → F
  | F.fin a => F.fin ⌈a⌉
  | F.nan => F.nan

/-- `std::max(a, b)`, i.e. `(a < b) ? b : a`. -/
def F.max (a b : F) : F := if F.lt a b then b else a

/-- `std::min(a, b)`, i.e. `(b < a) ? b : a`. -/
def F.min (a b : F) : F := if F.lt b a then b else a

/-- The transform journal record, `PresolverImpl::ModelView::Transform`.
The C++ source stores a `kind` tag next to NaN-initialized unused payload
fields; the payloads of the three kinds are disjoint, so a sum type carries
the same information. -/
inductive Transform where
  | add (v : Nat)
  | fix (v : Nat) (value : F)
  | substitute (v : Nat) (multiplier offset : F)
deriving DecidableEq, Repr

/-- Undo a single transform record against a sample
(the `switch` body of `ModelView::restore`). -/
def undoTransform (t : Transform) (sample : List F) : List F :=
  match t with
  | Transform.fix v value => sample.insertIdx v value
  | Transform.substitute v m o =>
      sample.set v (((sample.getD v (F.fin 0)).mul m).add o)
  | Transform.add v => sample.eraseIdx v

/-- `ModelView::restore`: walk the records back-to-front (the C++ loop runs
`crbegin()` to `crend()`, so the last record is undone first; `List.foldr`
applies the head of the chronological list last, which is the same order)
and undo each. -/
def restoreTransforms (transforms : List Transform) (sample : List F) : List F :=
  transforms.foldr undoTransform sample

/-- A journal is consistent with a starting variable count when every record
refers to an index that exists in the variable numbering at the moment the
record was written: `JournalConsistent n ts m` says the model had `n`
variables before the first record of `ts` and `m` variables after the last.
`ADD` may name any index of the grown numbering, `FIX` and `SUBSTITUTE` must
name an existing variable. -/
inductive JournalConsistent : Nat → List Transform → Nat → Prop
  | nil (n : Nat) : JournalConsistent n [] n
  | add (n m v : Nat) (ts : List Transform) :
      v ≤ n → JournalConsistent (n + 1) ts m →
      JournalConsistent n (Transform.add v :: ts) m
  | fix (n m v : Nat) (x : F) (ts : List Transform) :
      v ≤ n → JournalConsistent n ts m →
      JournalConsistent (n + 1) (Transform.fix v x :: ts) m
  | substitute (n m v : Nat) (a b : F) (ts : List Transform) :
      v < n → JournalConsistent n ts m →
      JournalConsistent n (Transform.substitute v a b :: ts) m

theorem restoreTransforms_nil (sample : List F) :
    restoreTransforms [] sample = sample := rfl

theorem restoreTransforms_cons (t : Transform) (ts : List Transform)
    (sample : List F) :
    restoreTransforms (t :: ts) sample =
      undoTransform t (restoreTransforms ts sample) := rfl

theorem length_restoreTransforms (ts : List Transform) (n m : Nat)
    (hts : JournalConsistent n ts m) (sample : List F)
    (hlen : sample.length = m) :
    (restoreTransforms ts sample).length = n := by
  induction hts generalizing sample with
  | nil n => simpa [restoreTransforms] using hlen
  | add n m v ts hv _ ih =>
      rw [restoreTransforms_cons]
      have h₁ : (restoreTransforms ts sample).length = n + 1 := ih sample hlen
      simp only [undoTransform]
      rw [List.length_eraseIdx_of_lt (by omega)]
      omega
  | fix n m v x ts hv _ ih =>
      rw [restoreTransforms_cons]
      have h₁ : (restoreTransforms ts sample).length = n := ih sample hlen
      simp only [undoTransform]
      rw [List.length_insertIdx _ _ (by omega)]
      omega
  | substitute n m v a b ts hv _ ih =>
      rw [restoreTransforms_cons]
      have h₁ : (restoreTransforms ts sample).length = n := ih sample hlen
      simp only [undoTransform]
      rw [List.length_set]
      exact h₁

theorem F_mul_comm (a b : F) : a.mul b = b.mul a := by
  cases a <;> cases b <;> try rfl
  rw [F_mul_fin, F_mul_fin, mul_comm]

/-- C1: for every journal consistent with an original variable count `n`
(ending at reduced count `m`) and every sample of reduced-model length `m`,
`restore` walks the records back-to-front applying the inverse of each —
`ADD{v}` erases position `v`, `SUBSTITUTE{v, m, o}` replaces `sample[v]` with
`m·sample[v] + o`, `FIX{v, value}` inserts `value` at position `v` — and the
returned assignment has length `n`, the original variable count. -/
theorem restore_inverts_journal (ts : List Transform) (n m : Nat)
    (hts : JournalConsistent n ts m) (sample : List F)
    (hlen : sample.length = m) :
    (restoreTransforms ts sample).length = n ∧
    (∀ (v : Nat) (ts' : List Transform) (s : List F),
        restoreTransforms (Transform.add v :: ts') s =
          (restoreTransforms ts' s).eraseIdx v) ∧
    (∀ (v : Nat) (a b : F) (ts' : List Transform) (s : List F),
        restoreTransforms (Transform.substitute v a b :: ts') s =
          (restoreTransforms ts' s).set v
            ((a.mul ((restoreTransforms ts' s).getD v (F.fin 0))).add b)) ∧
    (∀ (v : Nat) (x : F) (ts' : List Transform) (s : List F),
        restoreTransforms (Transform.fix v x :: ts') s =
          (restoreTransforms ts' s).insertIdx v x) := by
  refine ⟨length_restoreTransforms ts n m hts sample hlen, ?_, ?_, ?_⟩
  · intro v ts' s
    rfl
  · intro v a b ts' s
    rw [restoreTransforms_cons]
    simp only [undoTransform]
    rw [F_mul_comm]
  · intro v x ts' s
    rfl

theorem restore_inverts_journal_witness :
    (restoreTransforms
        [Transform.substitute 0 (F.fin 2) (F.fin (-1)),
         Transform.fix 0 (F.fin 1)] []).length = 1 :=
  (restore_inverts_journal _ 1 0
      (JournalConsistent.substitute 1 0 0 (F.fin 2) (F.fin (-1)) _
        (by omega)
        (JournalConsistent.fix 0 0 0 (F.fin 1) [] (by omega)
          (JournalConsistent.nil 0)))
      [] rfl).1

/-- `dimod::Vartype`. -/
inductive Vartype where
  | SPIN
  | BINARY
  | INTEGER
  | REAL
deriving DecidableEq, Repr

/-- `dimod::Sense`. -/
inductive Sense where
  | EQ
  | LE
  | GE
deriving DecidableEq, Repr

/-- One entry of the CQM variable table: vartype and bounds. -/
structure Vinfo where
  vartype : Vartype
  lb : F
  ub : F
deriving DecidableEq, Repr

/-- Normalized key of an unordered variable pair (self-pairs allowed). -/
def qkey (u v : Nat) : Nat × Nat := if u ≤ v then (u, v) else (v, u)

/-- A dimod expression: ordered variables with linear biases (dimod keeps a
linear bias, defaulting to zero, for every variable the expression
references), quadratic biases over unordered pairs, and a scalar offset. -/
structure Expr where
  linear : List (Nat × F)
  quad : List ((Nat × Nat) × F)
  offset : F
deriving DecidableEq, Repr

/-- `Expression::variables()`: the ordered variable list. -/
def Expr.vars (e : Expr) : List Nat := e.linear.map Prod.fst

/-- `Expression::num_variables()`. -/
def Expr.numVariables (e : Expr) : Nat := e.linear.length

/-- `Expression::linear(v)`, zero for an unreferenced variable. -/
def Expr.linearBias (e : Expr) (v : Nat) : F :=
  (e.linear.lookup v).getD (F.fin 0)

/-- `Expression::quadratic(u, v)`, zero when there is no interaction. -/
def Expr.quadratic (e : Expr) (u v : Nat) : F :=
  (e.quad.lookup (qkey u v)).getD (F.fin 0)

/-- `Expression::has_interaction(u, v)`. -/
def Expr.hasInteraction (e : Expr) (u v : Nat) : Bool :=
  (e.quad.lookup (qkey u v)).isSome

/-- Whether the expression references `v`. -/
def Expr.containsVar (e : Expr) (v : Nat) : Bool :=
  (e.linear.lookup v).isSome

/-- Register `v` in the expression with linear bias zero if absent. -/
def Expr.ensureVar (e : Expr) (v : Nat) : Expr :=
  if e.containsVar v then e
  else { e with linear := e.linear ++ [(v, F.fin 0)] }

/-- Modelled from the spec: dimod `add_quadratic(u, v, bias)` (declared in
§6, defined in the external dimod collaborator) adds `bias` onto the
unordered-pair bias `b_{u,v}`, registering `u` and `v` in the expression if
they are absent (appended at the end of the variable order). -/
def Expr.addQuadratic (e : Expr) (u v : Nat) (b : F) : Expr :=
  let e' := (e.ensureVar u).ensureVar v
  if e'.hasInteraction u v then
    { e' with quad :=
        e'.quad.map (fun p => if p.1 = qkey u v then (p.1, p.2.add b) else p) }
  else
    { e' with quad := e'.quad ++ [(qkey u v, b)] }

/-- Modelled from the spec: dimod `remove_interaction(u, v)` deletes the
unordered-pair bias; the endpoints stay referenced by the expression. -/
def Expr.removeInteraction (e : Expr) (u v : Nat) : Expr :=
  { e with quad := e.quad.filter (fun p => p.1 != qkey u v) }

/-- Modelled from the spec: dimod `remove_variable(v)` on an expression drops
`v`, its linear bias and every interaction involving it; a no-op when `v` is
not referenced. -/
def Expr.removeVariable (e : Expr) (v : Nat) : Expr :=
  { e with linear := e.linear.filter (fun p => p.1 != v),
           quad := e.quad.filter (fun p => p.1.1 != v && p.1.2 != v) }

/-- `Expression::num_interactions(v)`: interactions involving `v`. -/
def Expr.numInteractionsOf (e : Expr) (v : Nat) : Nat :=
  (e.quad.filter (fun p => p.1.1 == v || p.1.2 == v)).length

/-- `Expression::is_linear()`: no quadratic interactions. -/
def Expr.isLinear (e : Expr) : Bool := e.quad.isEmpty

/-- Scale every linear and quadratic bias and the offset by `s`. -/
def Expr.scaleBiases (e : Expr) (s : F) : Expr :=
  { linear := e.linear.map (fun p => (p.1, p.2.mul s)),
    quad := e.quad.map (fun p => (p.1, p.2.mul s)),
    offset := e.offset.mul s }

/-- Direction flip of a sense, used when a constraint is scaled by a
negative factor. -/
def Sense.flip : Sense → Sense
  | Sense.EQ => Sense.EQ
  | Sense.LE => Sense.GE
  | Sense.GE => Sense.LE

/-- A dimod constraint: an expression plus sense, right-hand side, soft flag
and discrete marker. -/
structure Constraint extends Expr where
  sense : Sense
  rhs : F
  soft : Bool
  discrete : Bool
deriving DecidableEq, Repr

/-- Modelled from the spec: dimod `Constraint::scale(s)` scales the whole
constraint — linear, quadratic, offset, rhs — by `s`, flipping the direction
of an inequality when `s` is negative (the repository test
`test_presolveimpl.cpp` pins this behavior for `scale(-1)` on `GE`). -/
def Constraint.scale (c : Constraint) (s : F) : Constraint :=
  { c with toExpr := c.toExpr.scaleBiases s,
           rhs := c.rhs.mul s,
           sense := if F.lt s (F.fin 0) then c.sense.flip else c.sense }

/-- `Constraint::shares_variables(other)`: a common referenced variable. -/
def Constraint.sharesVariables (c other : Constraint) : Bool :=
  c.toExpr.vars.any (fun v => other.toExpr.vars.contains v)

/-- `Constraint::mark_discrete(b)`. -/
def Constraint.markDiscrete (c : Constraint) (b : Bool) : Constraint :=
  { c with discrete := b }

/-- A constrained quadratic model: variable table, objective, constraints. -/
structure CQM where
  varinfo : List Vinfo
  objective : Expr
  constraints : List Constraint
deriving DecidableEq, Repr

def CQM.numVariables (m : CQM) : Nat := m.varinfo.length

def CQM.numConstraints (m : CQM) : Nat := m.constraints.length

def CQM.vinfoAt (m : CQM) (v : Nat) : Vinfo :=
  m.varinfo.getD v ⟨Vartype.REAL, F.fin 0, F.fin 0⟩

def CQM.vartype (m : CQM) (v : Nat) : Vartype := (m.vinfoAt v).vartype

def CQM.lowerBound (m : CQM) (v : Nat) : F := (m.vinfoAt v).lb

def CQM.upperBound (m : CQM) (v : Nat) : F := (m.vinfoAt v).ub

/-- Replace the element at index `i` (no-op when out of range). -/
def listModify (l : List α) (i : Nat) (f : α → α) : List α :=
  match l, i with
  | [], _ => []
  | a :: t, 0 => f a :: t
  | a :: t, i + 1 => a :: listModify t i f

def CQM.setLowerBound (m : CQM) (v : Nat) (b : F) : CQM :=
  { m with varinfo := listModify m.varinfo v (fun vi => { vi with lb := b }) }

def CQM.setUpperBound (m : CQM) (v : Nat) (b : F) : CQM :=
  { m with varinfo := listModify m.varinfo v (fun vi => { vi with ub := b }) }

/-- `add_variable(vt, lb, ub)`: append to the dense table, returning the new
index (the previous variable count). -/
def CQM.addVariable (m : CQM) (vt : Vartype) (lb ub : F) : CQM × Nat :=
  ({ m with varinfo := m.varinfo ++ [⟨vt, lb, ub⟩] }, m.varinfo.length)

/-- Build the linear constraint `Σ biasᵢ·varᵢ sense rhs` (offset zero, not
soft, not discrete). -/
def mkLinearConstraint (vs : List Nat) (biases : List F) (s : Sense)
    (rhs : F) : Constraint :=
  { linear := vs.zip biases, quad := [], offset := F.fin 0,
    sense := s, rhs := rhs, soft := false, discrete := false }

/-- `add_linear_constraint`: append. -/
def CQM.addLinearConstraint (m : CQM) (vs : List Nat) (biases : List F)
    (s : Sense) (rhs : F) : CQM :=
  { m with constraints := m.constraints ++ [mkLinearConstraint vs biases s rhs] }

/-- `remove_constraint(c)`. -/
def CQM.removeConstraint (m : CQM) (c : Nat) : CQM :=
  { m with constraints := m.constraints.eraseIdx c }

/-- Reindexing after the removal of variable `v`: larger indices shift down. -/
def shiftVar (v u : Nat) : Nat := if v < u then u - 1 else u

/-- Modelled from the spec: dimod `fix_variable(v, value)` substitutes the
fixed value everywhere in an expression and removes the variable, folding
the constant contribution (linear term plus self-interaction) into the
offset, moving each cross interaction `b·u·v` into the linear bias of `u`,
and shifting the indices above `v` down by one. -/
def Expr.fixVariable (e : Expr) (v : Nat) (value : F) : Expr :=
  { linear := (e.linear.filter (fun p => p.1 != v)).map
      (fun p => (shiftVar v p.1, p.2.add ((e.quadratic p.1 v).mul value))),
    quad := (e.quad.filter (fun p => p.1.1 != v && p.1.2 != v)).map
      (fun p => ((shiftVar v p.1.1, shiftVar v p.1.2), p.2)),
    offset := (e.offset.add ((e.linearBias v).mul value)).add
      ((e.quadratic v v).mul (value.mul value)) }

/-- Modelled from the spec: dimod CQM `fix_variable(v, value)` applies the
substitution to the objective and every constraint and removes row `v` of
the variable table. -/
def CQM.fixVariable (m : CQM) (v : Nat) (value : F) : CQM :=
  { varinfo := m.varinfo.eraseIdx v,
    objective := m.objective.fixVariable v value,
    constraints := m.constraints.map
      (fun c => { c with toExpr := c.toExpr.fixVariable v value }) }

/-- Modelled from the spec: the dimod-side effect of
`change_vartype(BINARY, v)` on a SPIN variable substitutes `x_v = 2·y − 1`
(original value = 2·new − 1) into an expression, rewriting biases
consistently. -/
def Expr.spinToBinary (e : Expr) (v : Nat) : Expr :=
  let a := e.linearBias v
  let bvv := e.quadratic v v
  { linear := e.linear.map (fun p =>
      if p.1 = v then (p.1, ((p.2.mul (F.fin 2)).sub (bvv.mul (F.fin 4))))
      else (p.1, p.2.sub (e.quadratic p.1 v))),
    quad := e.quad.map (fun p =>
      if p.1 = qkey v v then (p.1, p.2.mul (F.fin 4))
      else if p.1.1 = v ∨ p.1.2 = v then (p.1, p.2.mul (F.fin 2))
      else p),
    offset := (e.offset.sub a).add bvv }

/-- Modelled from the spec: dimod CQM `change_vartype(BINARY, v)` for a SPIN
variable retypes `v` as BINARY with bounds `(0, 1)` and rewrites every
expression with the substitution `x_v = 2·y − 1`. -/
def CQM.changeVartypeSpinToBinary (m : CQM) (v : Nat) : CQM :=
  { varinfo := listModify m.varinfo v
      (fun _ => ⟨Vartype.BINARY, F.fin 0, F.fin 1⟩),
    objective := m.objective.spinToBinary v,
    constraints := m.constraints.map
      (fun c => { c with toExpr := c.toExpr.spinToBinary v }) }

/-- Modelled from the spec: dimod `Constraint::is_onehot()`, a one-hot group
`Σ x_i = 1` over binary variables — linear, sense `EQ`, right-hand side 1,
offset 0, at least one variable, all linear biases 1, all variables binary. -/
def CQM.isOnehot (m : CQM) (c : Constraint) : Bool :=
  c.sense == Sense.EQ && c.rhs == F.fin 1 && c.offset == F.fin 0 &&
  c.quad.isEmpty && !c.toExpr.vars.isEmpty &&
  c.toExpr.vars.all (fun v =>
    c.toExpr.linearBias v == F.fin 1 && m.vartype v == Vartype.BINARY)

/-- Boundary error kinds. `InvalidModelError` is declared in
`dwave/exceptions.hpp`; infeasibility and API misuse are raised as
`std::logic_error` with a message. -/
inductive Err where
  | invalidModel (msg : String)
  | logicError (msg : String)
deriving DecidableEq, Repr

/-- Modelled from the spec: downstream tooling identifies the `Infeasible`
error kind by matching the stable string `"infeasible"` (the source notes
`need this exact message for Python` at every such throw site). -/
def Err.isInfeasibleKind : Err → Bool
  | Err.logicError msg => msg == "infeasible"
  | Err.invalidModel _ => false

/-- Modelled from the spec: the `Feasibility` enumeration of
`dwave/flags.hpp` (not under `src/`); `feasibility()` starts `Unknown`. -/
inductive Feasibility where
  | Unknown
  | Feasible
  | Infeasible
deriving DecidableEq, Repr

instance : Inhabited Constraint :=
  ⟨{ linear := [], quad := [], offset := F.fin 0, sense := Sense.EQ,
     rhs := F.fin 0, soft := false, discrete := false }⟩

/-- NaN scan of one expression (`normalization_check_nan(expression)`):
quadratic biases, linear biases, offset. -/
def Expr.hasNaN (e : Expr) : Bool :=
  e.quad.any (fun p => p.2.isnan) ||
  e.vars.any (fun v => (e.linearBias v).isnan) ||
  e.offset.isnan

/-- NaN scan of the whole model: objective, then every constraint. -/
def CQM.hasNaN (m : CQM) : Bool :=
  m.objective.hasNaN || m.constraints.any (fun c => c.toExpr.hasNaN)

/-- `normalization_check_nan()`: read-only; throws
`InvalidModelError("biases cannot be NAN")` on the first NaN bias. -/
def normalizationCheckNan (m : CQM) : Option Err :=
  if m.hasNaN then some (Err.invalidModel "biases cannot be NAN") else none

/-- Loop body of `normalization_spin_to_binary`, walking the given variable
indices: every SPIN variable goes through the Model View
`change_vartype(BINARY, v)`, which journals `SUBSTITUTE{v, 2, −1}` before
delegating to the CQM. -/
def spinToBinaryGo (m : CQM) (trans : List Transform) :
    List Nat → CQM × List Transform × Bool
  | [] => (m, trans, false)
  | v :: vs =>
      if m.vartype v = Vartype.SPIN then
        let m' := m.changeVartypeSpinToBinary v
        let trans' := trans ++ [Transform.substitute v (F.fin 2) (F.fin (-1))]
        let r := spinToBinaryGo m' trans' vs
        (r.1, r.2.1, true)
      else
        spinToBinaryGo m trans vs

/-- `normalization_spin_to_binary()`: the variable count is unchanged by the
per-variable rewrite, so the C++ index loop is a walk of `range`. -/
def normalizationSpinToBinary (m : CQM) (trans : List Transform) :
    CQM × List Transform × Bool :=
  spinToBinaryGo m trans (List.range m.numVariables)

/-- `normalization_remove_offset(constraint)`: when the offset is nonzero,
move it into the right-hand side. -/
def normalizationRemoveOffset (c : Constraint) : Constraint × Bool :=
  if c.offset.truthy then
    ({ c with rhs := c.rhs.sub c.offset,
              toExpr := { c.toExpr with offset := F.fin 0 } }, true)
  else (c, false)

/-- `normalization_remove_offsets()`. -/
def normalizationRemoveOffsets (m : CQM) : CQM × Bool :=
  let rs := m.constraints.map normalizationRemoveOffset
  ({ m with constraints := rs.map Prod.fst }, rs.any Prod.snd)

/-- `normalization_flip_constraint(constraint)`: `GE` is scaled by −1,
`EQ` and `LE` are untouched. -/
def normalizationFlipConstraint (c : Constraint) : Constraint × Bool :=
  if c.sense = Sense.GE then (c.scale (F.fin (-1)), true) else (c, false)

/-- `normalization_flip_constraints()`. -/
def normalizationFlipConstraints (m : CQM) : CQM × Bool :=
  let rs := m.constraints.map normalizationFlipConstraint
  ({ m with constraints := rs.map Prod.fst }, rs.any Prod.snd)

/-- The state threaded through `normalization_remove_self_loops`: the model
variable table, the `v ↦ v'` companion mapping, and the transform journal
(`add_variable` journals `ADD`). -/
structure SLAcc where
  varinfo : List Vinfo
  mapping : List (Nat × Nat)
  transforms : List Transform
deriving DecidableEq, Repr

/-- Companion lookup-or-allocate: an unseen self-looping variable gets a
fresh companion with the same vartype and bounds (journalling `ADD`). -/
def slFresh (acc : SLAcc) (v : Nat) : SLAcc × Nat :=
  match acc.mapping.lookup v with
  | some w => (acc, w)
  | none =>
      let vi := acc.varinfo.getD v ⟨Vartype.REAL, F.fin 0, F.fin 0⟩
      let w := acc.varinfo.length
      ({ varinfo := acc.varinfo ++ [vi],
         mapping := acc.mapping ++ [(v, w)],
         transforms := acc.transforms ++ [Transform.add w] }, w)

/-- The `substitute` lambda of `normalization_remove_self_loops`, walking the
snapshot of the expression variable list taken before the loop (the C++ code
iterates indices below the entry count; appended companions extend the list
past the snapshot and existing entries never move, so the walked prefix is
the entry list). -/
def slGo (acc : SLAcc) (e : Expr) : List Nat → SLAcc × Expr
  | [] => (acc, e)
  | v :: vs =>
      if e.hasInteraction v v then
        let r := slFresh acc v
        let e' := (e.addQuadratic v r.2 (e.quadratic v v)).removeInteraction v v
        slGo r.1 e' vs
      else
        slGo acc e vs

/-- `substitute` applied to every constraint in order. -/
def slConstraints (acc : SLAcc) : List Constraint → SLAcc × List Constraint
  | [] => (acc, [])
  | c :: cs =>
      let r := slGo acc c.toExpr c.toExpr.vars
      let r' := slConstraints r.1 cs
      (r'.1, { c with toExpr := r.2 } :: r'.2)

/-- `normalization_remove_self_loops()`: rewrite the objective, then every
constraint, then append the equality constraints `v − v' = 0` last.  The
C++ appends them in `unordered_map` iteration order, which is unspecified;
insertion order is used here (no claim depends on the order).  Returns the
new model, journal, the companion mapping, and the changed flag
(`mapping.size()` as a bool). -/
def normalizationRemoveSelfLoops (m : CQM) (trans : List Transform) :
    CQM × List Transform × List (Nat × Nat) × Bool :=
  let acc0 : SLAcc := ⟨m.varinfo, [], trans⟩
  let r1 := slGo acc0 m.objective m.objective.vars
  let r2 := slConstraints r1.1 m.constraints
  let newCs := r2.1.mapping.map (fun p =>
    mkLinearConstraint [p.1, p.2] [F.fin 1, F.fin (-1)] Sense.EQ (F.fin 0))
  ({ varinfo := r2.1.varinfo, objective := r1.2,
     constraints := r2.2 ++ newCs },
   r2.1.transforms, r2.1.mapping, !r2.1.mapping.isEmpty)

/-- First loop of `normalization_remove_invalid_markers`: unmark every
discrete-marked constraint that is not one-hot, collecting the indices of
the marked one-hot survivors. -/
def markersPhase1Go (m : CQM) (idx : Nat) :
    List Constraint → List Constraint × List Nat × Bool
  | [] => ([], [], false)
  | c :: rest =>
      let r := markersPhase1Go m (idx + 1) rest
      if c.discrete then
        if m.isOnehot c then (c :: r.1, idx :: r.2.1, r.2.2)
        else (c.markDiscrete false :: r.1, r.2.1, true)
      else (c :: r.1, r.2.1, r.2.2)

def unmarkAt (cs : List Constraint) (i : Nat) : List Constraint :=
  listModify cs i (fun c => c.markDiscrete false)

def cAt (cs : List Constraint) (i : Nat) : Constraint := cs.getD i default

/-- Second loop of `normalization_remove_invalid_markers`: while scanning the
survivor list, a survivor that shares a variable with any later survivor is
unmarked and erased from the list (the scan then continues at the same
position); otherwise the scan advances.  Returns the updated constraints,
the kept survivor indices, and whether anything was unmarked. -/
def markersPhase2 (cs : List Constraint) :
    List Nat → List Constraint × List Nat × Bool
  | [] => (cs, [], false)
  | i :: rest =>
      if rest.any (fun j => (cAt cs j).sharesVariables (cAt cs i)) then
        let r := markersPhase2 (unmarkAt cs i) rest
        (r.1, r.2.1, true)
      else
        let r := markersPhase2 cs rest
        (r.1, i :: r.2.1, r.2.2)

/-- `normalization_remove_invalid_markers()`. -/
def normalizationRemoveInvalidMarkers (m : CQM) : CQM × Bool :=
  let r1 := markersPhase1Go m 0 m.constraints
  let r2 := markersPhase2 r1.1 r1.2.1
  ({ m with constraints := r2.1 }, r1.2.2 || r2.2.2)

/-- The presolver state: the wrapped model, the transform journal of the
Model View, the `detached_` and `normalized_` flags, the feasibility verdict
and the technique flag set (a bitset; `0` is `None`). -/
structure Presolver where
  model : CQM
  transforms : List Transform
  detached : Bool
  normalized : Bool
  feasibility : Feasibility
  techniques : Nat
deriving DecidableEq, Repr

/-- Construction from a model: journal empty, not detached, not normalized,
feasibility `Unknown`, no techniques loaded. -/
def Presolver.init (m : CQM) : Presolver :=
  ⟨m, [], false, false, Feasibility.Unknown, 0⟩

/-- `TechniqueFlags::All` (`~0` as a 64-bit bitset). -/
def TechniqueFlagsAll : Nat := 0xffffffffffffffff

/-- `load_default_presolvers()`: set the flag set to `All`. -/
def Presolver.loadDefaultPresolvers (p : Presolver) : Presolver :=
  { p with techniques := TechniqueFlagsAll }

/-- `PresolverImpl::normalize()`: refuse when detached; run the six rewrites
in order (the NaN scan first, a throw leaving every mutation unexecuted);
mark the model normalized; return the disjunction of the changed flags. -/
def Presolver.normalize (p : Presolver) : Option Err × Presolver × Bool :=
  if p.detached then
    (some (Err.logicError
      "model has been detached, so there is no model to apply presolve() to"),
     p, false)
  else
    match normalizationCheckNan p.model with
    | some e => (some e, p, false)
    | none =>
        let r1 := normalizationSpinToBinary p.model p.transforms
        let r2 := normalizationRemoveOffsets r1.1
        let r3 := normalizationRemoveSelfLoops r2.1 r1.2.1
        let r4 := normalizationFlipConstraints r3.1
        let r5 := normalizationRemoveInvalidMarkers r4.1
        (none,
         { p with model := r5.1, transforms := r3.2.1, normalized := true },
         r1.2.2 || r2.2 || r3.2.2.2 || r4.2 || r5.2)

/-- `PresolverImpl::FEASIBILITY_TOLERANCE = 1.0e-6`. -/
def FEASIBILITY_TOLERANCE : F := F.fin (mkRat 1 1000000)

/-- `PresolverImpl::INF = 1.0e30`. -/
def INF : F := F.fin (mkRat 1000000000000000000000000000000 1)

theorem FEASIBILITY_TOLERANCE_eq :
    FEASIBILITY_TOLERANCE = F.fin (1 / 1000000) := by
  rw [FEASIBILITY_TOLERANCE, Rat.mkRat_eq_divInt, Rat.divInt_eq_div]
  norm_num

theorem INF_eq : INF = F.fin (10 ^ 30) := by
  rw [INF, Rat.mkRat_eq_divInt, Rat.divInt_eq_div]
  norm_num

def viGet (vi : List Vinfo) (v : Nat) : Vinfo :=
  vi.getD v ⟨Vartype.REAL, F.fin 0, F.fin 0⟩

def viSetLb (vi : List Vinfo) (v : Nat) (b : F) : List Vinfo :=
  listModify vi v (fun x => { x with lb := b })

def viSetUb (vi : List Vinfo) (v : Nat) (b : F) : List Vinfo :=
  listModify vi v (fun x => { x with ub := b })

/-- `remove_zero_biases(expression)`: drop every interaction whose bias is
(exactly) zero, then drop every variable whose linear bias is zero and which
participates in no remaining interaction. -/
def removeZeroBiases (e : Expr) : Expr × Bool :=
  let keptQuad := e.quad.filter (fun p => p.2.truthy)
  let e1 : Expr := { e with quad := keptQuad }
  let emptyVars := e1.vars.filter
    (fun v => !(e1.linearBias v).truthy && e1.numInteractionsOf v == 0)
  let e2 := emptyVars.foldl (fun acc v => acc.removeVariable v) e1
  (e2, e.quad.length != keptQuad.length || !emptyVars.isEmpty)

/-- `technique_remove_zero_biases()`: objective, then every constraint. -/
def techniqueRemoveZeroBiases (m : CQM) : CQM × Bool :=
  let ro := removeZeroBiases m.objective
  let rcs := m.constraints.map (fun c =>
    let r := removeZeroBiases c.toExpr
    ({ c with toExpr := r.1 }, r.2))
  ({ m with objective := ro.1, constraints := rcs.map Prod.fst },
   ro.2 || rcs.any Prod.snd)

/-- `CONDITIONAL_REMOVAL_BIAS_LIMIT = 1.0e-3`. -/
def CONDITIONAL_REMOVAL_BIAS_LIMIT : F := F.fin (mkRat 1 1000)

/-- `CONDITIONAL_REMOVAL_LIMIT = 1.0e-2`. -/
def CONDITIONAL_REMOVAL_LIMIT : F := F.fin (mkRat 1 100)

/-- `UNCONDITIONAL_REMOVAL_BIAS_LIMIT = 1.0e-10`. -/
def UNCONDITIONAL_REMOVAL_BIAS_LIMIT : F := F.fin (mkRat 1 10000000000)

/-- `SUM_REDUCTION_LIMIT = 1.0e-1`. -/
def SUM_REDUCTION_LIMIT : F := F.fin (mkRat 1 10)

theorem CONDITIONAL_REMOVAL_BIAS_LIMIT_eq :
    CONDITIONAL_REMOVAL_BIAS_LIMIT = F.fin (1 / 1000) := by
  rw [CONDITIONAL_REMOVAL_BIAS_LIMIT, Rat.mkRat_eq_divInt, Rat.divInt_eq_div]
  norm_num

theorem CONDITIONAL_REMOVAL_LIMIT_eq :
    CONDITIONAL_REMOVAL_LIMIT = F.fin (1 / 100) := by
  rw [CONDITIONAL_REMOVAL_LIMIT, Rat.mkRat_eq_divInt, Rat.divInt_eq_div]
  norm_num

theorem UNCONDITIONAL_REMOVAL_BIAS_LIMIT_eq :
    UNCONDITIONAL_REMOVAL_BIAS_LIMIT = F.fin (1 / 10 ^ 10) := by
  rw [UNCONDITIONAL_REMOVAL_BIAS_LIMIT, Rat.mkRat_eq_divInt,
    Rat.divInt_eq_div]
  norm_num

theorem SUM_REDUCTION_LIMIT_eq : SUM_REDUCTION_LIMIT = F.fin (1 / 10) := by
  rw [SUM_REDUCTION_LIMIT, Rat.mkRat_eq_divInt, Rat.divInt_eq_div]
  norm_num

/-- The conditional-candidate test of `remove_small_biases` for a variable
`v` in a constraint with `n` variables:
`|a| < CONDITIONAL_REMOVAL_BIAS_LIMIT` and
`|a|·(ub − lb)·n < CONDITIONAL_REMOVAL_LIMIT·FEASIBILITY_TOLERANCE`. -/
def smallBiasCondTest (vi : List Vinfo) (c : Constraint) (n : Nat)
    (v : Nat) : Bool :=
  let a := c.toExpr.linearBias v
  let range := (viGet vi v).ub.sub (viGet vi v).lb
  F.lt a.abs CONDITIONAL_REMOVAL_BIAS_LIMIT &&
  F.lt ((a.abs.mul range).mul (F.fin n))
    (CONDITIONAL_REMOVAL_LIMIT.mul FEASIBILITY_TOLERANCE)

/-- The unconditional-removal test of `remove_small_biases`:
`|a| < UNCONDITIONAL_REMOVAL_BIAS_LIMIT`.  In the source this is a second,
independent `if` in the same loop, not an `else`. -/
def smallBiasUncondTest (c : Constraint) (v : Nat) : Bool :=
  F.lt (c.toExpr.linearBias v).abs UNCONDITIONAL_REMOVAL_BIAS_LIMIT

/-- `remove_small_biases(constraint)`: skip quadratic constraints; one loop
collects the conditional candidates (`small_biases_temp`, accumulating
`reduction` and `reduction_magnitude`) and, independently, the unconditional
candidates (`small_biases`); if the total magnitude is below
`SUM_REDUCTION_LIMIT·FEASIBILITY_TOLERANCE` the right-hand side is reduced
and the conditional candidates are appended to the removal list; finally
every listed variable is removed (a repeated removal is a no-op). -/
def removeSmallBiases (vi : List Vinfo) (c : Constraint) :
    Constraint × Bool :=
  if !c.toExpr.isLinear then (c, false)
  else
    let n := c.toExpr.numVariables
    let condVars := c.toExpr.vars.filter (smallBiasCondTest vi c n)
    let reduction := condVars.foldl
      (fun acc v => acc.add ((c.toExpr.linearBias v).mul (viGet vi v).lb))
      (F.fin 0)
    let reductionMagnitude := condVars.foldl
      (fun acc v => acc.add ((c.toExpr.linearBias v).abs.mul
        ((viGet vi v).ub.sub (viGet vi v).lb))) (F.fin 0)
    let uncondVars := c.toExpr.vars.filter (smallBiasUncondTest c)
    let commit := F.lt reductionMagnitude
      (SUM_REDUCTION_LIMIT.mul FEASIBILITY_TOLERANCE)
    let c1 := if commit then { c with rhs := c.rhs.sub reduction } else c
    let toRemove := uncondVars ++ (if commit then condVars else [])
    let e' := toRemove.foldl (fun acc v => acc.removeVariable v) c1.toExpr
    ({ c1 with toExpr := e' }, !toRemove.isEmpty)

/-- `technique_remove_small_biases()`. -/
def techniqueRemoveSmallBiases (m : CQM) : CQM × Bool :=
  let rcs := m.constraints.map (removeSmallBiases m.varinfo)
  ({ m with constraints := rcs.map Prod.fst }, rcs.any Prod.snd)

/-- The zero-variable feasibility check of
`technique_remove_single_variable_constraints`: `EQ` requires
`offset == rhs`, `LE` requires `offset ≤ rhs`, `GE` requires `offset ≥ rhs`;
a violation throws `std::logic_error("infeasible")`. -/
def zeroVarCheck (c : Constraint) : Option Err :=
  match c.sense with
  | Sense.EQ =>
      if !(F.beq c.offset c.rhs) then some (Err.logicError "infeasible")
      else none
  | Sense.LE =>
      if F.lt c.rhs c.offset then some (Err.logicError "infeasible")
      else none
  | Sense.GE =>
      if F.lt c.offset c.rhs then some (Err.logicError "infeasible")
      else none

/-- Bound update of the one-variable case of
`technique_remove_single_variable_constraints` (`t = (rhs − offset)/a`):
`EQ` raises the lower and lowers the upper bound to `t`; `LE` xor `a < 0`
lowers the upper bound; otherwise the lower bound is raised. -/
def singleVarBoundUpdate (vi : List Vinfo) (c : Constraint) : List Vinfo :=
  let v := c.toExpr.vars.headD 0
  let a := c.toExpr.linearBias v
  let t := (c.rhs.sub c.offset).div a
  if c.sense == Sense.EQ then
    let viA := viSetLb vi v (F.max t (viGet vi v).lb)
    viSetUb viA v (F.min t (viGet viA v).ub)
  else if ((c.sense == Sense.LE) != F.lt a (F.fin 0)) then
    viSetUb vi v (F.min t (viGet vi v).ub)
  else
    viSetLb vi v (F.max t (viGet vi v).lb)

/-- The walk of `technique_remove_single_variable_constraints`: an index
that does not advance on deletion is a head-first walk of the constraint
list.  A non-soft empty constraint is checked (a violation propagates the
exception, leaving the constraint in place) and removed; a soft empty
constraint is removed without a check; a non-soft one-variable constraint
updates the bounds of its variable and is removed; anything else is kept. -/
def rsvcGo (vi : List Vinfo) :
    List Constraint → Option Err × List Vinfo × List Constraint × Bool
  | [] => (none, vi, [], false)
  | c :: rest =>
      if c.toExpr.numVariables == 0 then
        if !c.soft then
          match zeroVarCheck c with
          | some e => (some e, vi, c :: rest, false)
          | none =>
              let r := rsvcGo vi rest
              (r.1, r.2.1, r.2.2.1, true)
        else
          let r := rsvcGo vi rest
          (r.1, r.2.1, r.2.2.1, true)
      else if c.toExpr.numVariables == 1 && !c.soft then
        let vi1 := singleVarBoundUpdate vi c
        let r := rsvcGo vi1 rest
        (r.1, r.2.1, r.2.2.1, true)
      else
        let r := rsvcGo vi rest
        (r.1, r.2.1, c :: r.2.2.1, r.2.2.2)

/-- `technique_remove_single_variable_constraints()`. -/
def techniqueRemoveSingleVariableConstraints (m : CQM) :
    Option Err × CQM × Bool :=
  let r := rsvcGo m.varinfo m.constraints
  (r.1, { m with varinfo := r.2.1, constraints := r.2.2.1 }, r.2.2.2)

/-- Per-variable body of `technique_tighten_bounds`: integer-valued
vartypes get `ub ← ⌊ub⌋` and `lb ← ⌈lb⌉` when they differ; REAL is
untouched. -/
def tightenVinfo (x : Vinfo) : Vinfo × Bool :=
  match x.vartype with
  | Vartype.REAL => (x, false)
  | _ =>
      let ubPair := if !(F.beq x.ub x.ub.floor) then (x.ub.floor, true)
        else (x.ub, false)
      let lbPair := if !(F.beq x.lb x.lb.ceil) then (x.lb.ceil, true)
        else (x.lb, false)
      ({ x with ub := ubPair.1, lb := lbPair.1 }, ubPair.2 || lbPair.2)

/-- `technique_tighten_bounds()`. -/
def techniqueTightenBounds (m : CQM) : CQM × Bool :=
  let rs := m.varinfo.map tightenVinfo
  ({ m with varinfo := rs.map Prod.fst }, rs.any Prod.snd)

/-- `NEW_BOUND_MAX = 1.0e8`. -/
def NEW_BOUND_MAX : F := F.fin (mkRat 100000000 1)

/-- `MIN_CHANGE_FOR_BOUND_UPDATE = 1.0e-3`. -/
def MIN_CHANGE_FOR_BOUND_UPDATE : F := F.fin (mkRat 1 1000)

theorem NEW_BOUND_MAX_eq : NEW_BOUND_MAX = F.fin (10 ^ 8) := by
  rw [NEW_BOUND_MAX, Rat.mkRat_eq_divInt, Rat.divInt_eq_div]
  norm_num

theorem MIN_CHANGE_FOR_BOUND_UPDATE_eq :
    MIN_CHANGE_FOR_BOUND_UPDATE = F.fin (1 / 1000) := by
  rw [MIN_CHANGE_FOR_BOUND_UPDATE, Rat.mkRat_eq_divInt, Rat.divInt_eq_div]
  norm_num

/-- `get_min_max_activities(expression, exclude_v)`: min/max achievable
activity excluding `exclude_v`, clamped to `±INF` when a contributing bound
reaches past `±INF` (the clamp overwrites the accumulator). -/
def getMinMaxActivities (vi : List Vinfo) (c : Constraint)
    (excludeV : Nat) : F × F :=
  c.toExpr.vars.foldl (fun acc v =>
    if v == excludeV then acc
    else
      let a := c.toExpr.linearBias v
      let lb := (viGet vi v).lb
      let ub := (viGet vi v).ub
      if F.lt (F.fin 0) a then
        (if F.lt INF.neg lb then acc.1.add (a.mul lb) else INF.neg,
         if F.lt ub INF then acc.2.add (a.mul ub) else INF)
      else
        (if F.lt ub INF then acc.1.add (a.mul ub) else INF.neg,
         if F.lt INF.neg lb then acc.2.add (a.mul lb) else INF))
    (F.fin 0, F.fin 0)

/-- The four guarded bound updates of `domain_propagation` for one variable
(locals `lb`, `ub` are read once, before any update of this iteration). -/
def dpStep (vi : List Vinfo) (c : Constraint) (eq : Bool) (v : Nat) :
    Option Err × List Vinfo × Bool :=
  let mm := getMinMaxActivities vi c v
  let minac := mm.1
  let maxac := mm.2
  let a := c.toExpr.linearBias v
  let lb := (viGet vi v).lb
  let ub := (viGet vi v).ub
  let pnb1 := (c.rhs.sub minac).div a
  let pnb2 := (c.rhs.sub maxac).div a
  if F.lt NEW_BOUND_MAX pnb1.abs then (none, vi, false)
  else if eq && F.lt NEW_BOUND_MAX pnb2.abs then (none, vi, false)
  else if F.lt (F.fin 0) a then
    -- `a > 0`: pnb1 may lower the upper bound, pnb2 (EQ only) may raise
    -- the lower bound
    let b1 : Option Err × List Vinfo × Bool :=
      if F.lt INF.neg minac && F.lt c.rhs INF &&
         F.lt (MIN_CHANGE_FOR_BOUND_UPDATE.mul FEASIBILITY_TOLERANCE)
           (ub.sub pnb1) then
        if F.lt lb pnb1 && F.lt pnb1 ub then (none, viSetUb vi v pnb1, true)
        else if F.lt pnb1 lb then (some (Err.logicError "infeasible"), vi, false)
        else (none, vi, false)
      else (none, vi, false)
    match b1 with
    | (some e, vi1, _) => (some e, vi1, false)
    | (none, vi1, ch1) =>
        if eq && F.lt maxac INF && F.lt INF.neg c.rhs &&
           F.lt (MIN_CHANGE_FOR_BOUND_UPDATE.mul FEASIBILITY_TOLERANCE)
             (pnb2.sub lb) then
          if F.lt lb pnb2 && F.lt pnb2 ub then (none, viSetLb vi1 v pnb2, true)
          else if F.lt ub pnb2 then
            (some (Err.logicError "infeasible"), vi1, false)
          else (none, vi1, ch1)
        else (none, vi1, ch1)
  else if F.lt a (F.fin 0) then
    -- `a < 0`: pnb1 may raise the lower bound, pnb2 (EQ only) may lower
    -- the upper bound
    let b1 : Option Err × List Vinfo × Bool :=
      if F.lt INF.neg minac && F.lt c.rhs INF &&
         F.lt (MIN_CHANGE_FOR_BOUND_UPDATE.mul FEASIBILITY_TOLERANCE)
           (pnb1.sub lb) then
        if F.lt lb pnb1 && F.lt pnb1 ub then (none, viSetLb vi v pnb1, true)
        else if F.lt ub pnb1 then (some (Err.logicError "infeasible"), vi, false)
        else (none, vi, false)
      else (none, vi, false)
    match b1 with
    | (some e, vi1, _) => (some e, vi1, false)
    | (none, vi1, ch1) =>
        if eq && F.lt maxac INF && F.lt INF.neg c.rhs &&
           F.lt (MIN_CHANGE_FOR_BOUND_UPDATE.mul FEASIBILITY_TOLERANCE)
             (ub.sub pnb2) then
          if F.lt lb pnb2 && F.lt pnb2 ub then (none, viSetUb vi1 v pnb2, true)
          else if F.lt pnb2 lb then
            (some (Err.logicError "infeasible"), vi1, false)
          else (none, vi1, ch1)
        else (none, vi1, ch1)
  else (none, vi, false)

/-- The variable loop of `domain_propagation`: binary variables are skipped;
an exception propagates with the bounds updated so far. -/
def dpVars (c : Constraint) (eq : Bool) (vi : List Vinfo) :
    List Nat → Option Err × List Vinfo × Bool
  | [] => (none, vi, false)
  | v :: vs =>
      if (viGet vi v).vartype == Vartype.BINARY then dpVars c eq vi vs
      else
        match dpStep vi c eq v with
        | (some e, vi1, _) => (some e, vi1, false)
        | (none, vi1, ch) =>
            let r := dpVars c eq vi1 vs
            (r.1, r.2.1, ch || r.2.2)

/-- `domain_propagation(constraint)`: linear non-soft constraints only. -/
def domainPropagation (vi : List Vinfo) (c : Constraint) :
    Option Err × List Vinfo × Bool :=
  if !c.toExpr.isLinear || c.soft then (none, vi, false)
  else dpVars c (c.sense == Sense.EQ) vi c.toExpr.vars

/-- `technique_domain_propagation()`. -/
def dpConstraints (vi : List Vinfo) :
    List Constraint → Option Err × List Vinfo × Bool
  | [] => (none, vi, false)
  | c :: cs =>
      match domainPropagation vi c with
      | (some e, vi1, _) => (some e, vi1, false)
      | (none, vi1, ch) =>
          let r := dpConstraints vi1 cs
          (r.1, r.2.1, ch || r.2.2)

def techniqueDomainPropagation (m : CQM) : Option Err × CQM × Bool :=
  let r := dpConstraints m.varinfo m.constraints
  (r.1, { m with varinfo := r.2.1 }, r.2.2)

/-- The scan of `technique_remove_fixed_variables`: a variable with
`lb = ub` goes through the Model View `fix_variable(v, lb)` (delegating to
the CQM, then journalling `FIX{v, lb}`); the index advances after every
visit, including a removal.  The fuel argument only bounds the recursion:
the scan index grows by one per step while the variable count never grows,
so `numVariables + 1` steps always reach the exit condition. -/
def rfvGo (fuel : Nat) (m : CQM) (trans : List Transform) (v : Nat) :
    CQM × List Transform × Bool :=
  match fuel with
  | 0 => (m, trans, false)
  | fuel + 1 =>
      if v < m.numVariables then
        if F.beq (m.lowerBound v) (m.upperBound v) then
          let m' := m.fixVariable v (m.lowerBound v)
          let r := rfvGo fuel m'
            (trans ++ [Transform.fix v (m.lowerBound v)]) (v + 1)
          (r.1, r.2.1, true)
        else
          rfvGo fuel m trans (v + 1)
      else (m, trans, false)

/-- `technique_remove_fixed_variables()`. -/
def techniqueRemoveFixedVariables (m : CQM) (trans : List Transform) :
    CQM × List Transform × Bool :=
  rfvGo (m.numVariables + 1) m trans 0

/-- One round of the `presolve()` fixed-point loop: the six techniques in
declared order, an exception aborting the round with the state mutated so
far. -/
def presolveRound (m : CQM) (trans : List Transform) :
    Option Err × CQM × List Transform × Bool :=
  let r1 := techniqueRemoveZeroBiases m
  let r2 := techniqueRemoveSmallBiases r1.1
  let r3 := techniqueRemoveSingleVariableConstraints r2.1
  match r3.1 with
  | some e => (some e, r3.2.1, trans, false)
  | none =>
      let r4 := techniqueTightenBounds r3.2.1
      let r5 := techniqueDomainPropagation r4.1
      match r5.1 with
      | some e => (some e, r5.2.1, trans, false)
      | none =>
          let r6 := techniqueRemoveFixedVariables r5.2.1 trans
          (none, r6.1, r6.2.1,
           r1.2 || r2.2 || r3.2.2 || r4.2 || r5.2.2 || r6.2.2)

/-- The bounded fixed-point loop of `presolve()` (`max_num_rounds = 100`):
stop when a round reports no change or the round budget is exhausted,
returning the exit value of the changed flag. -/
def presolveLoop : Nat → Bool → CQM → List Transform →
    Option Err × CQM × List Transform × Bool
  | 0, changes, m, t => (none, m, t, changes)
  | fuel + 1, changes, m, t =>
      if !changes then (none, m, t, changes)
      else
        match presolveRound m t with
        | (some e, m', t', _) => (some e, m', t', false)
        | (none, m', t', ch) => presolveLoop fuel ch m' t'

/-- `PresolverImpl::presolve()`: refuse when detached or not normalized;
return early when no techniques are loaded; run the round loop; re-run the
discrete-marker validation on exit.  (The debug-only
`assert(!normalize())` of the source is not part of the release
behavior.) -/
def Presolver.presolve (p : Presolver) : Option Err × Presolver × Bool :=
  if p.detached then
    (some (Err.logicError
      "model has been detached, so there is no model to apply presolve() to"),
     p, false)
  else if !p.normalized then
    (some (Err.logicError
      "model must be normalized before presolve() is applied"), p, false)
  else if p.techniques == 0 then (none, p, false)
  else
    match presolveLoop 100 true p.model p.transforms with
    | (some e, m', t', _) =>
        (some e, { p with model := m', transforms := t' }, false)
    | (none, m', t', ch) =>
        let r := normalizationRemoveInvalidMarkers m'
        (none, { p with model := r.1, transforms := t' }, ch || r.2)

/-- `PresolverImpl::apply()`: `normalize() | presolve()` (both flags
contribute; an exception from `normalize` propagates before `presolve`
runs). -/
def Presolver.apply (p : Presolver) : Option Err × Presolver × Bool :=
  match p.normalize with
  | (some e, p1, _) => (some e, p1, false)
  | (none, p1, ch1) =>
      match p1.presolve with
      | (some e, p2, _) => (some e, p2, false)
      | (none, p2, ch2) => (none, p2, ch1 || ch2)

def emptyCQM : CQM := ⟨[], ⟨[], [], F.fin 0⟩, []⟩

/-- `detach_model()`: mark detached and swap the model out; the transform
journal is kept. -/
def Presolver.detachModel (p : Presolver) : CQM × Presolver :=
  (p.model, { p with detached := true, model := emptyCQM })

/-- `PresolverImpl::restore(reduced)`, delegating to the Model View. -/
def Presolver.restore (p : Presolver) (sample : List F) : List F :=
  restoreTransforms p.transforms sample

/-! ## Claim C2: NaN rejection -/

/-- C2: for every presolver (not detached, not yet normalized) whose model
contains a NaN in any linear bias, quadratic bias, or offset of the
objective or of any constraint, `normalize` raises `InvalidModel` with the
exact message `"biases cannot be NAN"`, the state — model, journal,
`normalized_` flag — is left unchanged (the NaN scan runs before any
rewriting normalization step), and a subsequent `presolve()` on that state
still fails with a logic error because the presolver was never marked
normalized. -/
theorem normalize_rejects_nan (p : Presolver)
    (hdet : p.detached = false) (hnorm : p.normalized = false)
    (hnan : p.model.hasNaN = true) :
    p.normalize = (some (Err.invalidModel "biases cannot be NAN"), p, false) ∧
    (p.normalize.2.1).presolve =
      (some (Err.logicError
        "model must be normalized before presolve() is applied"), p, false) := by
  have h1 : p.normalize =
      (some (Err.invalidModel "biases cannot be NAN"), p, false) := by
    simp [Presolver.normalize, normalizationCheckNan, hdet, hnan]
  refine ⟨h1, ?_⟩
  rw [h1]
  simp [Presolver.presolve, hdet, hnorm]

theorem normalize_rejects_nan_witness :
    (Presolver.init ⟨[⟨Vartype.BINARY, F.fin 0, F.fin 1⟩],
        ⟨[(0, F.nan)], [], F.fin 0⟩, []⟩).normalize =
      (some (Err.invalidModel "biases cannot be NAN"),
       Presolver.init ⟨[⟨Vartype.BINARY, F.fin 0, F.fin 1⟩],
        ⟨[(0, F.nan)], [], F.fin 0⟩, []⟩, false) :=
  (normalize_rejects_nan _ rfl rfl (by decide)).1

/-! ## Claim C4: `≥` → `≤` flipping -/

theorem listModify_map_eq (l : List α) (i : Nat) (f : α → α) (g : α → β)
    (h : ∀ a, g (f a) = g a) : (listModify l i f).map g = l.map g := by
  induction l generalizing i with
  | nil => rfl
  | cons a t ih =>
      cases i with
      | zero => simp [listModify, h]
      | succ j => simp [listModify, ih]

theorem markersPhase1Go_senses (m : CQM) (idx : Nat) (cs : List Constraint) :
    ((markersPhase1Go m idx cs).1).map (fun c => c.sense) =
      cs.map (fun c => c.sense) := by
  induction cs generalizing idx with
  | nil => rfl
  | cons c rest ih =>
      simp only [markersPhase1Go]
      by_cases hd : c.discrete = true
      · by_cases ho : m.isOnehot c = true
        · simp [hd, ho, ih]
        · simp only [Bool.not_eq_true] at ho
          simp [hd, ho, ih, Constraint.markDiscrete]
      · simp only [Bool.not_eq_true] at hd
        simp [hd, ih]

theorem markersPhase2_senses (cs : List Constraint) (l : List Nat) :
    ((markersPhase2 cs l).1).map (fun c => c.sense) =
      cs.map (fun c => c.sense) := by
  induction l generalizing cs with
  | nil => rfl
  | cons i rest ih =>
      simp only [markersPhase2]
      by_cases hsh :
          (rest.any fun j => (cAt cs j).sharesVariables (cAt cs i)) = true
      · simp only [hsh, if_true]
        rw [ih]
        exact listModify_map_eq _ _ _ _ (fun a => rfl)
      · simp only [Bool.not_eq_true] at hsh
        simp [hsh, ih]

theorem removeInvalidMarkers_senses (m : CQM) :
    ((normalizationRemoveInvalidMarkers m).1).constraints.map
        (fun c => c.sense) =
      m.constraints.map (fun c => c.sense) := by
  simp only [normalizationRemoveInvalidMarkers]
  rw [markersPhase2_senses, markersPhase1Go_senses]

theorem flipConstraints_no_ge (m : CQM) :
    ∀ c ∈ (normalizationFlipConstraints m).1.constraints,
      c.sense ≠ Sense.GE := by
  intro c hc
  simp only [normalizationFlipConstraints, List.map_map, List.mem_map] at hc
  obtain ⟨c₀, _, rfl⟩ := hc
  simp only [Function.comp]
  by_cases hge : c₀.sense = Sense.GE
  · have hlt : F.lt (F.fin (-1)) (F.fin 0) = true := by decide
    simp [normalizationFlipConstraint, hge, Constraint.scale, hlt, Sense.flip]
  · simp [normalizationFlipConstraint, hge]

/-- C4: flipping a `GE` constraint scales the whole constraint — every
linear bias, every quadratic bias, the offset and the right-hand side — by
−1 and sets its sense to `LE`; `EQ` and `LE` constraints are returned
unchanged; and after a successful `normalize` no constraint of the model
has sense `GE`. -/
theorem flip_ge_constraints (c₀ : Constraint) (p : Presolver)
    (hdet : p.detached = false) (hnan : p.model.hasNaN = false) :
    (c₀.sense = Sense.GE →
      (normalizationFlipConstraint c₀).2 = true ∧
      (normalizationFlipConstraint c₀).1.sense = Sense.LE ∧
      (normalizationFlipConstraint c₀).1.rhs = c₀.rhs.mul (F.fin (-1)) ∧
      (normalizationFlipConstraint c₀).1.offset =
        c₀.offset.mul (F.fin (-1)) ∧
      (normalizationFlipConstraint c₀).1.linear =
        c₀.linear.map (fun q => (q.1, q.2.mul (F.fin (-1)))) ∧
      (normalizationFlipConstraint c₀).1.quad =
        c₀.quad.map (fun q => (q.1, q.2.mul (F.fin (-1)))) ∧
      (normalizationFlipConstraint c₀).1.soft = c₀.soft ∧
      (normalizationFlipConstraint c₀).1.discrete = c₀.discrete) ∧
    (c₀.sense ≠ Sense.GE → normalizationFlipConstraint c₀ = (c₀, false)) ∧
    (∀ c ∈ (p.normalize).2.1.model.constraints, c.sense ≠ Sense.GE) := by
  refine ⟨?_, ?_, ?_⟩
  · intro hge
    have hlt : F.lt (F.fin (-1)) (F.fin 0) = true := by decide
    simp [normalizationFlipConstraint, hge, Constraint.scale, hlt,
      Sense.flip, Expr.scaleBiases]
  · intro hge
    simp [normalizationFlipConstraint, hge]
  · intro c hc
    simp only [Presolver.normalize, hdet, Bool.false_eq_true, if_false,
      normalizationCheckNan, hnan] at hc
    have hsen := removeInvalidMarkers_senses
      (normalizationFlipConstraints (normalizationRemoveSelfLoops
        (normalizationRemoveOffsets (normalizationSpinToBinary p.model
          p.transforms).1).1 (normalizationSpinToBinary p.model
          p.transforms).2.1).1).1
    have hmem : c.sense ∈
        ((normalizationRemoveInvalidMarkers (normalizationFlipConstraints
          (normalizationRemoveSelfLoops (normalizationRemoveOffsets
            (normalizationSpinToBinary p.model p.transforms).1).1
            (normalizationSpinToBinary p.model
              p.transforms).2.1).1).1).1).constraints.map
          (fun c => c.sense) :=
      List.mem_map_of_mem _ hc
    rw [hsen] at hmem
    obtain ⟨c', hc', hcs⟩ := List.mem_map.mp hmem
    have := flipConstraints_no_ge _ c' hc'
    intro hcontra
    rw [hcontra] at hcs
    exact this hcs

theorem flip_ge_constraints_witness :
    (normalizationFlipConstraint
        (mkLinearConstraint [0, 1] [F.fin 1, F.fin 1] Sense.GE
          (F.fin 1))).1.sense = Sense.LE :=
  ((flip_ge_constraints
      (mkLinearConstraint [0, 1] [F.fin 1, F.fin 1] Sense.GE (F.fin 1))
      (Presolver.init emptyCQM) rfl (by decide)).1 rfl).2.1

/-! ## Claim C5: empty-constraint feasibility checks -/

/-- C5 (amended): in the remove-single-variable-constraints technique, a
non-soft constraint with zero variables is checked by sense (`EQ` requires
`offset = rhs`, `LE` requires `offset ≤ rhs`, `GE` requires `offset ≥ rhs`);
a violation raises the `Infeasible` error kind carrying the exact string
`"infeasible"`, and the exception propagates with the constraint left in
place; when the check passes, or the constraint is soft (no check), the
constraint is removed unconditionally. -/
theorem remove_empty_constraint_checks (vi : List Vinfo) (c : Constraint)
    (rest : List Constraint) (h0 : c.toExpr.numVariables = 0) :
    (zeroVarCheck c = none ↔
      ((c.sense = Sense.EQ → F.beq c.offset c.rhs = true) ∧
       (c.sense = Sense.LE → F.lt c.rhs c.offset = false) ∧
       (c.sense = Sense.GE → F.lt c.offset c.rhs = false))) ∧
    (∀ e, zeroVarCheck c = some e →
       e = Err.logicError "infeasible" ∧ e.isInfeasibleKind = true) ∧
    (c.soft = false → ∀ e, zeroVarCheck c = some e →
       rsvcGo vi (c :: rest) = (some e, vi, c :: rest, false)) ∧
    (c.soft = false → zeroVarCheck c = none →
       rsvcGo vi (c :: rest) =
         ((rsvcGo vi rest).1, (rsvcGo vi rest).2.1,
          (rsvcGo vi rest).2.2.1, true)) ∧
    (c.soft = true →
       rsvcGo vi (c :: rest) =
         ((rsvcGo vi rest).1, (rsvcGo vi rest).2.1,
          (rsvcGo vi rest).2.2.1, true)) := by
  refine ⟨?_, ?_, ?_, ?_, ?_⟩
  · cases hs : c.sense <;>
      simp only [zeroVarCheck, hs] <;>
      [cases hb : F.beq c.offset c.rhs;
       cases hl : F.lt c.rhs c.offset;
       cases hl' : F.lt c.offset c.rhs] <;>
      simp_all
  · intro e he
    simp only [zeroVarCheck] at he
    split at he <;> split at he <;> (try cases he) <;>
      simp_all [Err.isInfeasibleKind]
  · intro hsoft e he
    simp [rsvcGo, h0, hsoft, he]
  · intro hsoft hok
    simp [rsvcGo, h0, hsoft, hok]
  · intro hsoft
    simp [rsvcGo, h0, hsoft]

theorem remove_empty_constraint_checks_witness :
    zeroVarCheck (mkLinearConstraint [] [] Sense.EQ (F.fin 0)) = none :=
  (remove_empty_constraint_checks []
      (mkLinearConstraint [] [] Sense.EQ (F.fin 0)) [] rfl).1.mpr
    (by decide)

/-- C5 counterexample: a model with a single zero-variable non-soft `EQ`
constraint with `offset = 0 ≠ 1 = rhs`: the technique raises the error with
the string `"infeasible"` while the constraint is *not* removed (the claim
asserts it is removed whether the check passed or not). -/
theorem remove_empty_constraint_kept_on_violation :
    (techniqueRemoveSingleVariableConstraints
        ⟨[], ⟨[], [], F.fin 0⟩,
         [{ linear := [], quad := [], offset := F.fin 0,
            sense := Sense.EQ, rhs := F.fin 1, soft := false,
            discrete := false }]⟩).1 =
      some (Err.logicError "infeasible") ∧
    (techniqueRemoveSingleVariableConstraints
        ⟨[], ⟨[], [], F.fin 0⟩,
         [{ linear := [], quad := [], offset := F.fin 0,
            sense := Sense.EQ, rhs := F.fin 1, soft := false,
            discrete := false }]⟩).2.1.numConstraints = 1 := by
  constructor <;> rfl

/-! ## Claim C6: small-bias removal -/

theorem foldl_removeVariable_linear (rs : List Nat) (e : Expr) :
    (rs.foldl (fun a v => a.removeVariable v) e).linear =
      e.linear.filter (fun p => !rs.contains p.1) := by
  induction rs generalizing e with
  | nil => simp
  | cons v vs ih =>
      rw [List.foldl_cons, ih]
      show ((e.removeVariable v).linear).filter _ = _
      simp only [Expr.removeVariable]
      rw [List.filter_filter]
      apply List.filter_congr
      intro p _
      simp only [List.contains_cons, Bool.not_or, bne]
      rw [Bool.and_comm]

theorem foldl_removeVariable_offset (rs : List Nat) (e : Expr) :
    (rs.foldl (fun a v => a.removeVariable v) e).offset = e.offset := by
  induction rs generalizing e with
  | nil => rfl
  | cons v vs ih =>
      rw [List.foldl_cons, ih]
      rfl

theorem contains_filter_of_mem {f : Nat → Bool} {l : List Nat} {x : Nat}
    (hx : x ∈ l) : (l.filter f).contains x = f x := by
  cases hfx : f x
  · simp only [List.contains, List.elem_eq_mem, decide_eq_false_iff_not]
    intro hmem
    have h2 := (List.mem_filter.mp hmem).2
    rw [hfx] at h2
    cases h2
  · simp only [List.contains, List.elem_eq_mem, decide_eq_true_eq]
    exact List.mem_filter.mpr ⟨hx, hfx⟩

theorem contains_append_or (as bs : List Nat) (x : Nat) :
    (as ++ bs).contains x = (as.contains x || bs.contains x) := by
  simp [List.contains, List.elem_eq_mem, List.mem_append]

/-- C6 (amended): in `remove_small_biases` on a linear constraint with `n`
variables, the conditional test (`|a| < 1e-3` and `|a|·r·n < 1e-2·1e-6`)
and the unconditional test (`|a| < 1e-10`) are two *independent* checks in
the same loop, not an if/else: a variable below the unconditional threshold
is still a conditional candidate whenever it passes the conditional test,
contributing `a·lb` to `reduction` and `|a|·r` to `reduction_magnitude`;
the committed rhs adjustment `rhs ← rhs − reduction` therefore sums `a·lb`
over *all* conditional candidates, including unconditionally-removed ones;
every marked variable is removed from the constraint (a variable marked by
both tests is handed to `remove_variable` twice, the second call a no-op),
leaving exactly the variables marked by neither test. -/
theorem remove_small_biases_amended (vi : List Vinfo) (c : Constraint)
    (hlin : c.toExpr.isLinear = true) :
    (∀ v ∈ c.toExpr.vars,
      (v ∈ c.toExpr.vars.filter
          (smallBiasCondTest vi c c.toExpr.numVariables) ↔
        smallBiasCondTest vi c c.toExpr.numVariables v = true)) ∧
    (removeSmallBiases vi c).1.rhs =
      (if F.lt ((c.toExpr.vars.filter
            (smallBiasCondTest vi c c.toExpr.numVariables)).foldl
            (fun acc v => acc.add ((c.toExpr.linearBias v).abs.mul
              ((viGet vi v).ub.sub (viGet vi v).lb))) (F.fin 0))
          (SUM_REDUCTION_LIMIT.mul FEASIBILITY_TOLERANCE)
       then c.rhs.sub ((c.toExpr.vars.filter
            (smallBiasCondTest vi c c.toExpr.numVariables)).foldl
            (fun acc v => acc.add ((c.toExpr.linearBias v).mul
              (viGet vi v).lb)) (F.fin 0))
       else c.rhs) ∧
    (removeSmallBiases vi c).1.toExpr.linear =
      c.toExpr.linear.filter (fun p =>
        !(smallBiasUncondTest c p.1 ||
          (F.lt ((c.toExpr.vars.filter
              (smallBiasCondTest vi c c.toExpr.numVariables)).foldl
              (fun acc v => acc.add ((c.toExpr.linearBias v).abs.mul
                ((viGet vi v).ub.sub (viGet vi v).lb))) (F.fin 0))
            (SUM_REDUCTION_LIMIT.mul FEASIBILITY_TOLERANCE) &&
           smallBiasCondTest vi c c.toExpr.numVariables p.1))) ∧
    (removeSmallBiases vi c).1.sense = c.sense ∧
    (removeSmallBiases vi c).1.soft = c.soft := by
  have hcond : ∀ v ∈ c.toExpr.vars,
      (v ∈ c.toExpr.vars.filter
          (smallBiasCondTest vi c c.toExpr.numVariables) ↔
        smallBiasCondTest vi c c.toExpr.numVariables v = true) := by
    intro v hv
    constructor
    · intro hmem
      exact (List.mem_filter.mp hmem).2
    · intro ht
      exact List.mem_filter.mpr ⟨hv, ht⟩
  by_cases hcommit : F.lt ((c.toExpr.vars.filter
        (smallBiasCondTest vi c c.toExpr.numVariables)).foldl
        (fun acc v => acc.add ((c.toExpr.linearBias v).abs.mul
          ((viGet vi v).ub.sub (viGet vi v).lb))) (F.fin 0))
      (SUM_REDUCTION_LIMIT.mul FEASIBILITY_TOLERANCE) = true
  · refine ⟨hcond, ?_, ?_, ?_, ?_⟩ <;>
      simp only [removeSmallBiases, hlin, Bool.not_true, Bool.false_eq_true,
        if_false, hcommit, if_true] <;>
      try rfl
    rw [foldl_removeVariable_linear]
    apply List.filter_congr
    intro p hp
    have hpv : p.1 ∈ c.toExpr.vars := List.mem_map_of_mem Prod.fst hp
    rw [contains_append_or, contains_filter_of_mem hpv,
      contains_filter_of_mem hpv]
    simp
  · simp only [Bool.not_eq_true] at hcommit
    refine ⟨hcond, ?_, ?_, ?_, ?_⟩ <;>
      simp only [removeSmallBiases, hlin, Bool.not_true, Bool.false_eq_true,
        if_false, hcommit, Bool.true_eq_false] <;>
      try rfl
    rw [foldl_removeVariable_linear]
    apply List.filter_congr
    intro p hp
    have hpv : p.1 ∈ c.toExpr.vars := List.mem_map_of_mem Prod.fst hp
    rw [List.append_nil, contains_filter_of_mem hpv]
    simp

theorem remove_small_biases_amended_witness :
    (removeSmallBiases [⟨Vartype.REAL, F.fin 1, F.fin 2⟩]
        { linear := [(0, F.fin (mkRat 1 100000000000))], quad := [],
          offset := F.fin 0, sense := Sense.LE, rhs := F.fin 1,
          soft := false, discrete := false }).1.toExpr.linear = [] := by
  have h := (remove_small_biases_amended [⟨Vartype.REAL, F.fin 1, F.fin 2⟩]
      { linear := [(0, F.fin (mkRat 1 100000000000))], quad := [],
        offset := F.fin 0, sense := Sense.LE, rhs := F.fin 1,
        soft := false, discrete := false } (by decide)).2.2.1
  rw [h]
  decide

/-- C6 counterexample: the constraint `1e-11·x ≤ 1` with `x ∈ [1, 2]`: the
variable passes the unconditional test `|a| < 1e-10`, so under the claim it
would never contribute to `reduction` and the committed rhs would stay `1`;
the code also treats it as a conditional candidate and commits
`rhs ← 1 − 1e-11`. -/
theorem remove_small_biases_counterexample :
    smallBiasUncondTest
      { linear := [(0, F.fin (mkRat 1 100000000000))], quad := [],
        offset := F.fin 0, sense := Sense.LE, rhs := F.fin 1,
        soft := false, discrete := false } 0 = true ∧
    (removeSmallBiases [⟨Vartype.REAL, F.fin 1, F.fin 2⟩]
        { linear := [(0, F.fin (mkRat 1 100000000000))], quad := [],
          offset := F.fin 0, sense := Sense.LE, rhs := F.fin 1,
          soft := false, discrete := false }).1.rhs =
      F.fin (mkRat 99999999999 100000000000) ∧
    (removeSmallBiases [⟨Vartype.REAL, F.fin 1, F.fin 2⟩]
        { linear := [(0, F.fin (mkRat 1 100000000000))], quad := [],
          offset := F.fin 0, sense := Sense.LE, rhs := F.fin 1,
          soft := false, discrete := false }).1.rhs ≠ F.fin 1 := by
  refine ⟨by decide, by decide, by decide⟩

/-! ## Claim C9: remove fixed variables -/

/-- C9 (amended): the scan of the remove-fixed-variables technique invokes
`fix_variable(v, lb)` — appending a `FIX{v, lb}` record to the transform
journal — for every variable it visits whose `lb = ub`; after such a
removal the scan index still advances, so the variable that shifts into the
removed slot is not visited and a single run can return with variables
still satisfying `lb = ub` (they are reached in later rounds of the
driver loop).  Every record the technique appends is a `FIX`. -/
theorem remove_fixed_variables_amended (m : CQM) (trans : List Transform)
    (v fuel : Nat) (hv : v < m.numVariables)
    (hfix : F.beq (m.lowerBound v) (m.upperBound v) = true) :
    (rfvGo (fuel + 1) m trans v =
      ((rfvGo fuel (m.fixVariable v (m.lowerBound v))
          (trans ++ [Transform.fix v (m.lowerBound v)]) (v + 1)).1,
       (rfvGo fuel (m.fixVariable v (m.lowerBound v))
          (trans ++ [Transform.fix v (m.lowerBound v)]) (v + 1)).2.1,
       true)) ∧
    (∀ (m' : CQM) (t' : List Transform) (v' : Nat),
      v' < m'.numVariables →
      F.beq (m'.lowerBound v') (m'.upperBound v') = false →
      rfvGo (fuel + 1) m' t' v' = rfvGo fuel m' t' (v' + 1)) ∧
    (∀ (m' : CQM) (t' : List Transform) (v' : Nat),
      m'.numVariables ≤ v' → rfvGo (fuel + 1) m' t' v' = (m', t', false)) ∧
    (∀ (fuel' : Nat) (m' : CQM) (t' : List Transform) (v' : Nat),
      ∃ new : List Transform,
        (rfvGo fuel' m' t' v').2.1 = t' ++ new ∧
        ∀ t ∈ new, ∃ w val, t = Transform.fix w val) := by
  refine ⟨?_, ?_, ?_, ?_⟩
  · simp [rfvGo, hv, hfix]
  · intro m' t' v' hv' hfix'
    simp [rfvGo, hv', hfix']
  · intro m' t' v' hv'
    simp [rfvGo, Nat.not_lt.mpr hv']
  · intro fuel'
    induction fuel' with
    | zero =>
        intro m' t' v'
        exact ⟨[], by simp [rfvGo], by simp⟩
    | succ n ih =>
        intro m' t' v'
        by_cases hv' : v' < m'.numVariables
        · by_cases hfix' : F.beq (m'.lowerBound v') (m'.upperBound v') = true
          · obtain ⟨new, hnew, hall⟩ := ih (m'.fixVariable v' (m'.lowerBound v'))
              (t' ++ [Transform.fix v' (m'.lowerBound v')]) (v' + 1)
            refine ⟨Transform.fix v' (m'.lowerBound v') :: new, ?_, ?_⟩
            · simp only [rfvGo, hv', if_true, hfix', hnew]
              simp
            · intro t ht
              rcases List.mem_cons.mp ht with h | h
              · exact ⟨v', m'.lowerBound v', h⟩
              · exact hall t h
          · simp only [Bool.not_eq_true] at hfix'
            obtain ⟨new, hnew, hall⟩ := ih m' t' (v' + 1)
            refine ⟨new, ?_, hall⟩
            simp only [rfvGo, hv', if_true, hfix']
            simpa using hnew
        · exact ⟨[], by simp [rfvGo, hv'], by simp⟩

theorem remove_fixed_variables_amended_witness :
    rfvGo 1 ⟨[⟨Vartype.INTEGER, F.fin 1, F.fin 1⟩], ⟨[], [], F.fin 0⟩, []⟩
        [] 0 =
      ((rfvGo 0 (CQM.fixVariable
          ⟨[⟨Vartype.INTEGER, F.fin 1, F.fin 1⟩], ⟨[], [], F.fin 0⟩, []⟩ 0
          (F.fin 1)) [Transform.fix 0 (F.fin 1)] 1).1,
       (rfvGo 0 (CQM.fixVariable
          ⟨[⟨Vartype.INTEGER, F.fin 1, F.fin 1⟩], ⟨[], [], F.fin 0⟩, []⟩ 0
          (F.fin 1)) [Transform.fix 0 (F.fin 1)] 1).2.1,
       true) := by
  have h := (remove_fixed_variables_amended
    ⟨[⟨Vartype.INTEGER, F.fin 1, F.fin 1⟩], ⟨[], [], F.fin 0⟩, []⟩ [] 0 0
    (by decide) (by decide)).1
  simpa using h

/-- C9 counterexample: a model with two variables, both with `lb = ub`
(values 1 and 2): one run of the technique fixes only the first; the second
slides into slot 0, is skipped, and the technique returns with a variable
still satisfying `lb = ub` — the claim asserts no remaining variable has
`lb = ub`. -/
theorem remove_fixed_variables_counterexample :
    (techniqueRemoveFixedVariables
        ⟨[⟨Vartype.INTEGER, F.fin 1, F.fin 1⟩,
          ⟨Vartype.INTEGER, F.fin 2, F.fin 2⟩],
         ⟨[], [], F.fin 0⟩, []⟩ []).1.varinfo =
      [⟨Vartype.INTEGER, F.fin 2, F.fin 2⟩] ∧
    (techniqueRemoveFixedVariables
        ⟨[⟨Vartype.INTEGER, F.fin 1, F.fin 1⟩,
          ⟨Vartype.INTEGER, F.fin 2, F.fin 2⟩],
         ⟨[], [], F.fin 0⟩, []⟩ []).1.lowerBound 0 =
      (techniqueRemoveFixedVariables
        ⟨[⟨Vartype.INTEGER, F.fin 1, F.fin 1⟩,
          ⟨Vartype.INTEGER, F.fin 2, F.fin 2⟩],
         ⟨[], [], F.fin 0⟩, []⟩ []).1.upperBound 0 ∧
    (techniqueRemoveFixedVariables
        ⟨[⟨Vartype.INTEGER, F.fin 1, F.fin 1⟩,
          ⟨Vartype.INTEGER, F.fin 2, F.fin 2⟩],
         ⟨[], [], F.fin 0⟩, []⟩ []).2.1 =
      [Transform.fix 0 (F.fin 1)] := by
  refine ⟨by decide, by decide, by decide⟩

/-! ## Claim C8: `2x = 7` over an integer variable -/

/-- C8: with one INTEGER variable `x ∈ [0, 10]`, the single non-soft
constraint `2x = 7` and all techniques loaded, `apply()` returns *without*
raising any error: single-variable elimination sets `lb = ub = 7/2`,
integer bound snapping gives `lb = 4`, `ub = 3`, and the pipeline then
terminates normally, leaving the inverted bound box `lb > ub` in the model
(contradicting the claim that an error carrying `"infeasible"` is
raised). -/
theorem apply_2x_eq_7_no_infeasible :
    ((Presolver.init ⟨[⟨Vartype.INTEGER, F.fin 0, F.fin 10⟩],
        ⟨[], [], F.fin 0⟩,
        [{ linear := [(0, F.fin 2)], quad := [], offset := F.fin 0,
           sense := Sense.EQ, rhs := F.fin 7, soft := false,
           discrete := false }]⟩).loadDefaultPresolvers).apply =
      (none,
       { model := ⟨[⟨Vartype.INTEGER, F.fin 4, F.fin 3⟩],
           ⟨[], [], F.fin 0⟩, []⟩,
         transforms := [], detached := false, normalized := true,
         feasibility := Feasibility.Unknown,
         techniques := TechniqueFlagsAll }, false) := by
  decide

/-! ## Claim C10: feasibility stays Unknown -/

/-- The presolver operations of the external interface that could
conceivably touch the feasibility verdict. -/
inductive Op where
  | normalizeOp
  | presolveOp
  | applyOp
  | detachOp
deriving DecidableEq, Repr

def runOp (p : Presolver) : Op → Presolver
  | Op.normalizeOp => p.normalize.2.1
  | Op.presolveOp => p.presolve.2.1
  | Op.applyOp => p.apply.2.1
  | Op.detachOp => p.detachModel.2

def runOps (p : Presolver) (ops : List Op) : Presolver := ops.foldl runOp p

theorem normalize_feasibility (p : Presolver) :
    (p.normalize.2.1).feasibility = p.feasibility := by
  simp only [Presolver.normalize]
  split
  · rfl
  · split <;> rfl

theorem presolve_feasibility (p : Presolver) :
    (p.presolve.2.1).feasibility = p.feasibility := by
  simp only [Presolver.presolve]
  split
  · rfl
  · split
    · rfl
    · split
      · rfl
      · split <;> rfl

theorem apply_feasibility (p : Presolver) :
    (p.apply.2.1).feasibility = p.feasibility := by
  simp only [Presolver.apply]
  split
  · next e p1 b heq =>
      have h1 : p1 = p.normalize.2.1 := by rw [heq]
      rw [h1, normalize_feasibility]
  · next p1 ch1 heq =>
      have h1 : p1 = p.normalize.2.1 := by rw [heq]
      split
      · next e p2 b heq2 =>
          have h2 : p2 = p1.presolve.2.1 := by rw [heq2]
          rw [h2, presolve_feasibility, h1, normalize_feasibility]
      · next p2 ch2 heq2 =>
          have h2 : p2 = p1.presolve.2.1 := by rw [heq2]
          rw [h2, presolve_feasibility, h1, normalize_feasibility]

theorem runOp_feasibility (p : Presolver) (o : Op) :
    (runOp p o).feasibility = p.feasibility := by
  cases o with
  | normalizeOp => exact normalize_feasibility p
  | presolveOp => exact presolve_feasibility p
  | applyOp => exact apply_feasibility p
  | detachOp => rfl

/-- C10: `feasibility()` returns `Unknown` at construction and after every
sequence of `normalize`, `presolve`, `apply` and `detach_model` calls — no
operation of the presolver ever assigns `Feasible` or `Infeasible`, so
infeasibility is reported only by throwing, never through the
`feasibility()` accessor. -/
theorem feasibility_always_unknown (m : CQM) (flags : Nat)
    (ops : List Op) :
    (runOps { Presolver.init m with techniques := flags } ops).feasibility =
      Feasibility.Unknown := by
  have key : ∀ (q : Presolver) (os : List Op),
      (runOps q os).feasibility = q.feasibility := by
    intro q os
    induction os generalizing q with
    | nil => rfl
    | cons o os ih =>
        show (runOps (runOp q o) os).feasibility = _
        rw [ih, runOp_feasibility]
  rw [key]
  rfl

/-! ## Claim C7: discrete-marker overlap resolution -/

theorem listModify_getD_ne {l : List α} {i k : Nat} {f : α → α} {d : α}
    (h : k ≠ i) : (listModify l i f).getD k d = l.getD k d := by
  induction l generalizing i k with
  | nil => rfl
  | cons a t ih =>
      cases i with
      | zero =>
          cases k with
          | zero => exact absurd rfl h
          | succ j => rfl
      | succ i' =>
          cases k with
          | zero => rfl
          | succ j =>
              show (listModify t i' f).getD j d = t.getD j d
              exact ih (fun hji => h (by rw [hji]))

theorem listModify_getD_self {l : List α} {i : Nat} {f : α → α} {d : α}
    (h : i < l.length) : (listModify l i f).getD i d = f (l.getD i d) := by
  induction l generalizing i with
  | nil => exact absurd h (by simp)
  | cons a t ih =>
      cases i with
      | zero => rfl
      | succ i' =>
          show (listModify t i' f).getD i' d = f (t.getD i' d)
          exact ih (by simpa using h)

theorem listModify_oob {l : List α} {i : Nat} {f : α → α}
    (h : l.length ≤ i) : listModify l i f = l := by
  induction l generalizing i with
  | nil => rfl
  | cons a t ih =>
      cases i with
      | zero => exact absurd h (by simp)
      | succ i' =>
          show a :: listModify t i' f = a :: t
          rw [ih (by simpa using h)]

theorem cAt_unmarkAt_discrete (cs : List Constraint) (i k : Nat) :
    (cAt (unmarkAt cs i) k).discrete =
      if k = i then false else (cAt cs k).discrete := by
  by_cases hk : k = i
  · subst hk
    rw [if_pos rfl]
    by_cases hl : k < cs.length
    · show ((listModify cs k
          (fun c => c.markDiscrete false)).getD k default).discrete = false
      rw [listModify_getD_self hl]
      rfl
    · show ((listModify cs k
          (fun c => c.markDiscrete false)).getD k default).discrete = false
      rw [listModify_oob (Nat.le_of_not_lt hl),
        List.getD_eq_default _ _ (Nat.le_of_not_lt hl)]
      rfl
  · rw [if_neg hk]
    show ((listModify cs i
        (fun c => c.markDiscrete false)).getD k default).discrete = _
    rw [listModify_getD_ne hk]
    rfl

theorem cAt_unmarkAt_toExpr (cs : List Constraint) (i k : Nat) :
    (cAt (unmarkAt cs i) k).toExpr = (cAt cs k).toExpr := by
  by_cases hk : k = i
  · subst hk
    by_cases hl : k < cs.length
    · show ((listModify cs k
          (fun c => c.markDiscrete false)).getD k default).toExpr = _
      rw [listModify_getD_self hl]
      rfl
    · show ((listModify cs k
          (fun c => c.markDiscrete false)).getD k default).toExpr = _
      rw [listModify_oob (Nat.le_of_not_lt hl)]
      rfl
  · show ((listModify cs i
        (fun c => c.markDiscrete false)).getD k default).toExpr = _
    rw [listModify_getD_ne hk]
    rfl

theorem sharesVariables_congr {c c' d d' : Constraint}
    (hc : c.toExpr = c'.toExpr) (hd : d.toExpr = d'.toExpr) :
    c.sharesVariables d = c'.sharesVariables d' := by
  simp [Constraint.sharesVariables, hc, hd]

theorem markersPhase2_cons_overlap (cs : List Constraint) (i : Nat)
    (rest : List Nat)
    (hsh : (rest.any fun j => (cAt cs j).sharesVariables (cAt cs i)) = true) :
    markersPhase2 cs (i :: rest) =
      ((markersPhase2 (unmarkAt cs i) rest).1,
       (markersPhase2 (unmarkAt cs i) rest).2.1, true) := by
  simp [markersPhase2, hsh]

theorem markersPhase2_cons_keep (cs : List Constraint) (i : Nat)
    (rest : List Nat)
    (hsh : (rest.any fun j => (cAt cs j).sharesVariables (cAt cs i)) = false) :
    markersPhase2 cs (i :: rest) =
      ((markersPhase2 cs rest).1, i :: (markersPhase2 cs rest).2.1,
       (markersPhase2 cs rest).2.2) := by
  simp [markersPhase2, hsh]

theorem markersPhase2_toExpr (cs : List Constraint) (l : List Nat)
    (k : Nat) :
    (cAt (markersPhase2 cs l).1 k).toExpr = (cAt cs k).toExpr := by
  induction l generalizing cs with
  | nil => rfl
  | cons i rest ih =>
      by_cases hsh :
          (rest.any fun j => (cAt cs j).sharesVariables (cAt cs i)) = true
      · rw [markersPhase2_cons_overlap cs i rest hsh]
        show (cAt (markersPhase2 (unmarkAt cs i) rest).1 k).toExpr = _
        rw [ih (unmarkAt cs i), cAt_unmarkAt_toExpr]
      · rw [markersPhase2_cons_keep cs i rest (Bool.not_eq_true _ ▸ hsh)]
        exact ih cs

theorem markersPhase2_kept_subset (cs : List Constraint) (l : List Nat) :
    ∀ j ∈ (markersPhase2 cs l).2.1, j ∈ l := by
  induction l generalizing cs with
  | nil =>
      intro j hj
      exact absurd hj (List.not_mem_nil j)
  | cons i rest ih =>
      intro j hj
      by_cases hsh :
          (rest.any fun j => (cAt cs j).sharesVariables (cAt cs i)) = true
      · rw [markersPhase2_cons_overlap cs i rest hsh] at hj
        exact List.mem_cons_of_mem i (ih (unmarkAt cs i) j hj)
      · rw [markersPhase2_cons_keep cs i rest (Bool.not_eq_true _ ▸ hsh)] at hj
        rcases List.mem_cons.mp hj with h | h
        · exact h ▸ List.mem_cons_self i rest
        · exact List.mem_cons_of_mem i (ih cs j h)

theorem markersPhase2_pairwise (cs : List Constraint) (l : List Nat) :
    ((markersPhase2 cs l).2.1).Pairwise
      (fun a b => (cAt cs b).sharesVariables (cAt cs a) = false) := by
  induction l generalizing cs with
  | nil => exact List.Pairwise.nil
  | cons i rest ih =>
      by_cases hsh :
          (rest.any fun j => (cAt cs j).sharesVariables (cAt cs i)) = true
      · rw [markersPhase2_cons_overlap cs i rest hsh]
        have h := ih (unmarkAt cs i)
        refine h.imp ?_
        intro a b hab
        rw [sharesVariables_congr (cAt_unmarkAt_toExpr cs i b)
          (cAt_unmarkAt_toExpr cs i a)] at hab
        exact hab
      · rw [markersPhase2_cons_keep cs i rest (Bool.not_eq_true _ ▸ hsh)]
        have hall : ∀ j ∈ rest,
            (cAt cs j).sharesVariables (cAt cs i) = false := by
          intro j hjr
          have := List.any_eq_false.mp (Bool.not_eq_true _ ▸ hsh) j hjr
          exact Bool.not_eq_true _ ▸ (by simpa using this)
        exact List.Pairwise.cons
          (fun j hj => hall j (markersPhase2_kept_subset cs rest j hj))
          (ih cs)

theorem markersPhase2_marked (cs : List Constraint) (l : List Nat)
    (hnd : l.Nodup) (k : Nat) :
    ((cAt (markersPhase2 cs l).1 k).discrete = true ↔
      ((cAt cs k).discrete = true ∧
        (k ∈ l → k ∈ (markersPhase2 cs l).2.1))) := by
  induction l generalizing cs with
  | nil => simp [markersPhase2]
  | cons i rest ih =>
      obtain ⟨hni, hndr⟩ := List.nodup_cons.mp hnd
      by_cases hsh :
          (rest.any fun j => (cAt cs j).sharesVariables (cAt cs i)) = true
      · rw [markersPhase2_cons_overlap cs i rest hsh]
        show (cAt (markersPhase2 (unmarkAt cs i) rest).1 k).discrete = true ↔ _
        rw [ih (unmarkAt cs i) hndr, cAt_unmarkAt_discrete]
        by_cases hk : k = i
        · subst hk
          have hkk : k ∉ (markersPhase2 (unmarkAt cs k) rest).2.1 :=
            fun hm => hni (markersPhase2_kept_subset (unmarkAt cs k) rest k hm)
          simp [hkk]
        · simp [hk, List.mem_cons]
      · rw [markersPhase2_cons_keep cs i rest (Bool.not_eq_true _ ▸ hsh)]
        show (cAt (markersPhase2 cs rest).1 k).discrete = true ↔ _
        rw [ih cs hndr]
        by_cases hk : k = i
        · subst hk
          simp [hni, List.mem_cons]
        · simp [hk, List.mem_cons]

/-- C7 (amended): among the one-hot discrete-marked survivors, whenever a
survivor shares a variable with a *later* survivor, the *earlier* one in
iteration order is unmarked and dropped from the survivor list while the
later one is kept at that step — the opposite of first-come-first-kept —
and the marked constraints that remain are exactly the kept survivors,
which form pairwise-disjoint one-hot groups. -/
theorem discrete_marker_overlap_amended (m : CQM) (cs : List Constraint)
    (l : List Nat) (i : Nat) (rest : List Nat)
    (hnd : l.Nodup)
    (hmark : ∀ j, ((cAt cs j).discrete = true ↔ j ∈ l))
    (honehot : ∀ j ∈ l, m.isOnehot (cAt cs j) = true) :
    ((rest.any fun j => (cAt cs j).sharesVariables (cAt cs i)) = true →
      markersPhase2 cs (i :: rest) =
        ((markersPhase2 (unmarkAt cs i) rest).1,
         (markersPhase2 (unmarkAt cs i) rest).2.1, true)) ∧
    ((rest.any fun j => (cAt cs j).sharesVariables (cAt cs i)) = false →
      markersPhase2 cs (i :: rest) =
        ((markersPhase2 cs rest).1, i :: (markersPhase2 cs rest).2.1,
         (markersPhase2 cs rest).2.2)) ∧
    ((markersPhase2 cs l).2.1).Pairwise
      (fun a b => (cAt cs b).sharesVariables (cAt cs a) = false) ∧
    (∀ j ∈ (markersPhase2 cs l).2.1, m.isOnehot (cAt cs j) = true) ∧
    (∀ k, ((cAt (markersPhase2 cs l).1 k).discrete = true ↔
      k ∈ (markersPhase2 cs l).2.1)) ∧
    (∀ k, (cAt (markersPhase2 cs l).1 k).toExpr = (cAt cs k).toExpr) := by
  refine ⟨markersPhase2_cons_overlap cs i rest,
    markersPhase2_cons_keep cs i rest,
    markersPhase2_pairwise cs l, ?_, ?_, markersPhase2_toExpr cs l⟩
  · intro j hj
    exact honehot j (markersPhase2_kept_subset cs l j hj)
  · intro k
    rw [markersPhase2_marked cs l hnd k]
    constructor
    · rintro ⟨hdk, himp⟩
      exact himp ((hmark k).mp hdk)
    · intro hk
      have hkl := markersPhase2_kept_subset cs l k hk
      exact ⟨(hmark k).mpr hkl, fun _ => hk⟩

def onehotPairModel : CQM :=
  ⟨[⟨Vartype.BINARY, F.fin 0, F.fin 1⟩, ⟨Vartype.BINARY, F.fin 0, F.fin 1⟩,
    ⟨Vartype.BINARY, F.fin 0, F.fin 1⟩],
   ⟨[], [], F.fin 0⟩,
   [{ linear := [(0, F.fin 1), (1, F.fin 1)], quad := [],
      offset := F.fin 0, sense := Sense.EQ, rhs := F.fin 1, soft := false,
      discrete := true },
    { linear := [(1, F.fin 1), (2, F.fin 1)], quad := [],
      offset := F.fin 0, sense := Sense.EQ, rhs := F.fin 1, soft := false,
      discrete := true }]⟩

theorem discrete_marker_overlap_amended_witness :
    markersPhase2 onehotPairModel.constraints [0, 1] =
      ((markersPhase2 (unmarkAt onehotPairModel.constraints 0) [1]).1,
       (markersPhase2 (unmarkAt onehotPairModel.constraints 0) [1]).2.1,
       true) :=
  (discrete_marker_overlap_amended onehotPairModel
      onehotPairModel.constraints [0, 1] 0 [1]
      (by decide)
      (by
        intro j
        match j with
        | 0 => decide
        | 1 => decide
        | (n + 2) =>
            constructor
            · intro h
              have hd : cAt onehotPairModel.constraints (n + 2) = default := by
                have h2 : onehotPairModel.constraints.length = 2 := rfl
                exact List.getD_eq_default _ _ (by rw [h2]; omega)
              rw [hd] at h
              exact absurd h (by decide)
            · intro h
              rcases List.mem_cons.mp h with h0 | h1
              · omega
              · rcases List.mem_cons.mp h1 with h0 | h2
                · omega
                · cases h2)
      (by
        intro j hj
        rcases List.mem_cons.mp hj with h | h
        · subst h
          decide
        · have : j = 1 := by simpa using h
          subst this
          decide)).1 (by decide)

/-- C7 counterexample: two overlapping one-hot discrete-marked constraints
(sharing variable 1): after the marker-validation pass the *first*
constraint has lost its mark while the *second* keeps it — the claim says
the later one is unmarked and the earlier keeps its mark. -/
theorem discrete_marker_overlap_counterexample :
    ((normalizationRemoveInvalidMarkers onehotPairModel).1).constraints.map
        (fun c => c.discrete) = [false, true] := by
  decide

/-! ## Claim C3: self-loop removal

Association-list lookup lemmas and the effect of the dimod expression
operations on quadratic keys, then the invariant of the `substitute`
walk. -/

theorem lookup_append_match {α β : Type} [BEq α] [LawfulBEq α] (k : α)
    (l1 l2 : List (α × β)) :
    (l1 ++ l2).lookup k =
      match l1.lookup k with
      | some b => some b
      | none => l2.lookup k := by
  induction l1 with
  | nil => rfl
  | cons p t ih =>
      obtain ⟨a, b⟩ := p
      show List.lookup k ((a, b) :: (t ++ l2)) = _
      cases hk : k == a
      · simp [List.lookup_cons, hk, ih]
      · simp [List.lookup_cons, hk]

theorem lookup_none_not_key {α β : Type} [BEq α] [LawfulBEq α]
    {l : List (α × β)} {k : α}
    (h : l.lookup k = none) : k ∉ l.map Prod.fst := by
  induction l with
  | nil => simp
  | cons p t ih =>
      obtain ⟨a, b⟩ := p
      cases hk : k == a
      · simp only [List.lookup_cons, hk] at h
        simp only [List.map_cons, List.mem_cons]
        rintro (rfl | hm)
        · simp at hk
        · exact ih h hm
      · simp [List.lookup_cons, hk] at h

theorem lookup_mem_pairs {α β : Type} [BEq α] [LawfulBEq α]
    {l : List (α × β)} {k : α} {b : β}
    (h : l.lookup k = some b) : (k, b) ∈ l := by
  induction l with
  | nil => cases h
  | cons p t ih =>
      obtain ⟨a, c⟩ := p
      cases hk : k == a
      · simp only [List.lookup_cons, hk] at h
        exact List.mem_cons_of_mem _ (ih h)
      · simp only [List.lookup_cons, hk, Option.some.injEq] at h
        have hka : k = a := by simpa using hk
        subst hka
        subst h
        exact List.mem_cons_self _ _

theorem lookup_isSome_key_mem {α β : Type} [BEq α] [LawfulBEq α]
    {l : List (α × β)} {k : α}
    (h : (l.lookup k).isSome = true) : k ∈ l.map Prod.fst := by
  cases hl : l.lookup k with
  | none => rw [hl] at h; cases h
  | some b => exact List.mem_map_of_mem Prod.fst (lookup_mem_pairs hl)

theorem lookup_filter_ne {α β : Type} [BEq α] [LawfulBEq α]
    (l : List (α × β)) (k k0 : α) (h : k ≠ k0) :
    (l.filter (fun p => p.1 != k0)).lookup k = l.lookup k := by
  induction l with
  | nil => rfl
  | cons p t ih =>
      obtain ⟨a, b⟩ := p
      by_cases ha : a = k0
      · subst ha
        have hf : (((a, b) : α × β).1 != a) = false := by simp
        rw [List.filter_cons, hf, if_neg (by simp)]
        rw [ih, List.lookup_cons]
        have : (k == a) = false := by
          simp only [beq_eq_false_iff_ne]
          exact h
        simp [this]
      · have hf : (((a, b) : α × β).1 != k0) = true := by simp [ha]
        rw [List.filter_cons, hf, if_pos rfl]
        rw [List.lookup_cons, List.lookup_cons]
        cases hk : k == a
        · simp [hk, ih]
        · simp [hk]

theorem lookup_filter_self {α β : Type} [BEq α] [LawfulBEq α]
    (l : List (α × β)) (k0 : α) :
    (l.filter (fun p => p.1 != k0)).lookup k0 = none := by
  induction l with
  | nil => rfl
  | cons p t ih =>
      obtain ⟨a, b⟩ := p
      by_cases ha : a = k0
      · subst ha
        have hf : (((a, b) : α × β).1 != a) = false := by simp
        rw [List.filter_cons, hf, if_neg (by simp)]
        exact ih
      · have hf : (((a, b) : α × β).1 != k0) = true := by simp [ha]
        rw [List.filter_cons, hf, if_pos rfl]
        rw [List.lookup_cons]
        have : (k0 == a) = false := by
          simp only [beq_eq_false_iff_ne]
          exact fun h => ha h.symm
        simp [this, ih]

theorem lookup_map_addval {α β : Type} [BEq α] [LawfulBEq α]
    [DecidableEq α]
    (l : List (α × β)) (k k0 : α) (f : β → β) (h : k ≠ k0) :
    ((l.map (fun p => if p.1 = k0 then (p.1, f p.2) else p)).lookup k) =
      l.lookup k := by
  induction l with
  | nil => rfl
  | cons p t ih =>
      obtain ⟨a, b⟩ := p
      by_cases ha : a = k0
      · subst ha
        simp only [List.map_cons, if_pos rfl]
        rw [List.lookup_cons, List.lookup_cons]
        have : (k == a) = false := by
          simp only [beq_eq_false_iff_ne]
          exact h
        simp [this, ih]
      · simp only [List.map_cons, if_neg ha]
        rw [List.lookup_cons, List.lookup_cons]
        cases hk : k == a
        · simp [hk, ih]
        · simp [hk]

theorem qkey_of_le {u v : Nat} (h : u ≤ v) : qkey u v = (u, v) :=
  if_pos h

theorem qkey_self (v : Nat) : qkey v v = (v, v) := qkey_of_le (Nat.le_refl v)

theorem qkey_eq_pair_iff {x y a b : Nat} :
    qkey x y = (a, b) ↔
      ((x = a ∧ y = b ∧ x ≤ y) ∨ (y = a ∧ x = b ∧ ¬ x ≤ y)) := by
  unfold qkey
  split <;> simp [Prod.ext_iff] <;> omega

theorem quad_ensureVar (e : Expr) (v : Nat) :
    (e.ensureVar v).quad = e.quad := by
  rw [Expr.ensureVar]
  split <;> rfl

theorem linear_ensureVar (e : Expr) (v : Nat) :
    ∃ ext, (e.ensureVar v).linear = e.linear ++ ext ∧
      ∀ q ∈ ext, q.2 = F.fin 0 := by
  rw [Expr.ensureVar]
  split
  · exact ⟨[], by simp, by simp⟩
  · exact ⟨[(v, F.fin 0)], rfl, by simp⟩

theorem offset_ensureVar (e : Expr) (v : Nat) :
    (e.ensureVar v).offset = e.offset := by
  rw [Expr.ensureVar]
  split <;> rfl

theorem ensure2_quad (e : Expr) (u v : Nat) :
    ((e.ensureVar u).ensureVar v).quad = e.quad := by
  rw [quad_ensureVar, quad_ensureVar]

theorem ensure2_hasInteraction (e : Expr) (u v x y : Nat) :
    ((e.ensureVar u).ensureVar v).hasInteraction x y =
      e.hasInteraction x y := by
  rw [Expr.hasInteraction, Expr.hasInteraction, ensure2_quad]

theorem quad_addQuadratic (e : Expr) (u v : Nat) (b : F) :
    (e.addQuadratic u v b).quad =
      if e.hasInteraction u v = true then
        e.quad.map (fun p => if p.1 = qkey u v then (p.1, p.2.add b) else p)
      else e.quad ++ [(qkey u v, b)] := by
  simp only [Expr.addQuadratic, ensure2_hasInteraction, ensure2_quad]
  split <;> rfl

theorem linear_addQuadratic (e : Expr) (u v : Nat) (b : F) :
    ∃ ext, (e.addQuadratic u v b).linear = e.linear ++ ext ∧
      ∀ q ∈ ext, q.2 = F.fin 0 := by
  obtain ⟨e1, h1, h1z⟩ := linear_ensureVar e u
  obtain ⟨e2, h2, h2z⟩ := linear_ensureVar (e.ensureVar u) v
  refine ⟨e1 ++ e2, ?_, ?_⟩
  · simp only [Expr.addQuadratic]
    split
    · show ((e.ensureVar u).ensureVar v).linear = _
      rw [h2, h1, List.append_assoc]
    · show ((e.ensureVar u).ensureVar v).linear = _
      rw [h2, h1, List.append_assoc]
  · intro q hq
    rcases List.mem_append.mp hq with h | h
    · exact h1z q h
    · exact h2z q h

theorem offset_addQuadratic (e : Expr) (u v : Nat) (b : F) :
    (e.addQuadratic u v b).offset = e.offset := by
  simp only [Expr.addQuadratic]
  split
  · show ((e.ensureVar u).ensureVar v).offset = _
    rw [offset_ensureVar, offset_ensureVar]
  · show ((e.ensureVar u).ensureVar v).offset = _
    rw [offset_ensureVar, offset_ensureVar]

theorem lookupQ_addQuadratic_ne (e : Expr) (u v x y : Nat) (b : F)
    (h : qkey x y ≠ qkey u v) :
    (e.addQuadratic u v b).quad.lookup (qkey x y) =
      e.quad.lookup (qkey x y) := by
  rw [quad_addQuadratic]
  split
  · exact lookup_map_addval e.quad (qkey x y) (qkey u v) (fun q => q.add b) h
  · rw [lookup_append_match]
    cases hl : e.quad.lookup (qkey x y)
    · have hne : (qkey x y == qkey u v) = false := by
        simp only [beq_eq_false_iff_ne]
        exact h
      simp [List.lookup_cons, hne]
    · rfl

theorem lookupQ_addQuadratic_new (e : Expr) (u v : Nat) (b : F)
    (h : e.hasInteraction u v = false) :
    (e.addQuadratic u v b).quad.lookup (qkey u v) = some b := by
  have hc : ¬ (e.hasInteraction u v = true) := by
    rw [h]
    exact Bool.false_ne_true
  rw [quad_addQuadratic, if_neg hc]
  rw [lookup_append_match]
  have hnone : e.quad.lookup (qkey u v) = none := by
    cases hl : e.quad.lookup (qkey u v)
    · rfl
    · exfalso
      apply hc
      show (e.quad.lookup (qkey u v)).isSome = true
      rw [hl]
      rfl
  rw [hnone]
  simp [List.lookup_cons]

theorem lookupQ_removeInteraction_self (e : Expr) (u v : Nat) :
    (e.removeInteraction u v).quad.lookup (qkey u v) = none :=
  lookup_filter_self e.quad (qkey u v)

theorem lookupQ_removeInteraction_ne (e : Expr) (u v x y : Nat)
    (h : qkey x y ≠ qkey u v) :
    (e.removeInteraction u v).quad.lookup (qkey x y) =
      e.quad.lookup (qkey x y) :=
  lookup_filter_ne e.quad (qkey x y) (qkey u v) h

theorem keys_removeInteraction_subset (e : Expr) (u v : Nat) {k : Nat × Nat}
    (h : k ∈ (e.removeInteraction u v).quad.map Prod.fst) :
    k ∈ e.quad.map Prod.fst := by
  obtain ⟨p, hp, rfl⟩ := List.mem_map.mp h
  exact List.mem_map_of_mem Prod.fst (List.mem_of_mem_filter hp)

theorem keys_addQuadratic_subset (e : Expr) (u v : Nat) (b : F)
    {k : Nat × Nat}
    (h : k ∈ (e.addQuadratic u v b).quad.map Prod.fst) :
    k ∈ e.quad.map Prod.fst ∨ k = qkey u v := by
  rw [quad_addQuadratic] at h
  revert h
  split
  · intro h
    obtain ⟨p, hp, rfl⟩ := List.mem_map.mp h
    obtain ⟨q, hq, rfl⟩ := List.mem_map.mp hp
    by_cases hpk : q.1 = qkey u v
    · rw [if_pos hpk]
      right
      exact hpk
    · rw [if_neg hpk]
      left
      exact List.mem_map_of_mem Prod.fst hq
  · intro h
    rw [List.map_append] at h
    rcases List.mem_append.mp h with h1 | h1
    · exact Or.inl h1
    · right
      simpa using h1

/-- Shorthand for the default `Vinfo` used by `getD` on variable tables. -/
def dVinfo : Vinfo := ⟨Vartype.REAL, F.fin 0, F.fin 0⟩

theorem lookup_none_of_not_key {α β : Type} [BEq α] [LawfulBEq α]
    {l : List (α × β)} {k : α}
    (h : k ∉ l.map Prod.fst) : l.lookup k = none := by
  induction l with
  | nil => rfl
  | cons p t ih =>
      obtain ⟨a, b⟩ := p
      simp only [List.map_cons, List.mem_cons] at h
      push_neg at h
      rw [List.lookup_cons]
      have : (k == a) = false := by
        simp only [beq_eq_false_iff_ne]
        exact h.1
      simp only [this]
      exact ih h.2

/-- The companion allocation of `normalization_remove_self_loops`: either
the cached companion or a fresh variable with the same vartype and bounds,
journalling `ADD`. -/
theorem slFresh_spec (n₀ : Nat) (acc : SLAcc) (v : Nat)
    (hA1 : n₀ ≤ acc.varinfo.length)
    (hA2 : ∀ p ∈ acc.mapping,
      p.1 < n₀ ∧ n₀ ≤ p.2 ∧ p.2 < acc.varinfo.length)
    (hA3 : (acc.mapping.map Prod.fst).Nodup)
    (hA5 : ∀ p ∈ acc.mapping,
      acc.varinfo.getD p.2 dVinfo = acc.varinfo.getD p.1 dVinfo)
    (hv : v < n₀) :
    n₀ ≤ (slFresh acc v).2 ∧
    (slFresh acc v).1.mapping.lookup v = some (slFresh acc v).2 ∧
    (∃ extV, (slFresh acc v).1.varinfo = acc.varinfo ++ extV) ∧
    (∃ extM, (slFresh acc v).1.mapping = acc.mapping ++ extM ∧
      (slFresh acc v).1.transforms = acc.transforms ++
        extM.map (fun p => Transform.add p.2)) ∧
    n₀ ≤ (slFresh acc v).1.varinfo.length ∧
    (∀ p ∈ (slFresh acc v).1.mapping,
      p.1 < n₀ ∧ n₀ ≤ p.2 ∧ p.2 < (slFresh acc v).1.varinfo.length) ∧
    ((slFresh acc v).1.mapping.map Prod.fst).Nodup ∧
    (∀ p ∈ (slFresh acc v).1.mapping,
      (slFresh acc v).1.varinfo.getD p.2 dVinfo =
        (slFresh acc v).1.varinfo.getD p.1 dVinfo) ∧
    (∀ u w, acc.mapping.lookup u = some w →
      (slFresh acc v).1.mapping.lookup u = some w) := by
  rw [slFresh]
  cases hlk : acc.mapping.lookup v with
  | some w =>
      obtain ⟨_, hw1, hw2⟩ := hA2 (v, w) (lookup_mem_pairs hlk)
      exact ⟨hw1, hlk, ⟨[], by simp⟩, ⟨[], by simp, by simp⟩, hA1, hA2,
        hA3, hA5, fun u w' h => h⟩
  | none =>
      have hvnk : v ∉ acc.mapping.map Prod.fst := lookup_none_not_key hlk
      have hlk2 : (acc.mapping ++
          [(v, acc.varinfo.length)]).lookup v = some acc.varinfo.length := by
        rw [lookup_append_match, hlk]
        simp [List.lookup_cons]
      refine ⟨hA1, hlk2, ⟨[acc.varinfo.getD v dVinfo], rfl⟩,
        ⟨[(v, acc.varinfo.length)], rfl, rfl⟩, ?_, ?_, ?_, ?_, ?_⟩
      · show n₀ ≤ (acc.varinfo ++ [acc.varinfo.getD v dVinfo]).length
        rw [List.length_append]
        omega
      · intro p hp
        rcases List.mem_append.mp hp with h | h
        · obtain ⟨h1, h2, h3⟩ := hA2 p h
          refine ⟨h1, h2, ?_⟩
          rw [List.length_append]
          omega
        · have hpv : p = (v, acc.varinfo.length) := by simpa using h
          subst hpv
          refine ⟨hv, hA1, ?_⟩
          rw [List.length_append]
          simp
      · rw [List.map_append]
        rw [List.nodup_append]
        refine ⟨hA3, by simp, ?_⟩
        intro a ha hb
        have : a = v := by simpa using hb
        subst this
        exact hvnk ha
      · intro p hp
        rcases List.mem_append.mp hp with h | h
        · obtain ⟨h1, h2, h3⟩ := hA2 p h
          rw [List.getD_append _ _ _ _ h3,
            List.getD_append _ _ _ _ (by omega)]
          exact hA5 p h
        · have hpv : p = (v, acc.varinfo.length) := by simpa using h
          subst hpv
          rw [List.getD_append_right _ _ _ _ (Nat.le_refl _)]
          rw [List.getD_append _ _ _ _ (by omega)]
          show ([acc.varinfo.getD v dVinfo]).getD
            (acc.varinfo.length - acc.varinfo.length) dVinfo = _
          rw [Nat.sub_self]
          rfl
      · intro u w h
        rw [lookup_append_match, h]

theorem lookup_isSome_of_key_mem {α β : Type} [BEq α] [LawfulBEq α]
    {l : List (α × β)} {k : α}
    (h : k ∈ l.map Prod.fst) : (l.lookup k).isSome = true := by
  induction l with
  | nil => simp at h
  | cons p t ih =>
      obtain ⟨a, b⟩ := p
      rw [List.lookup_cons]
      cases hk : k == a
      · simp only []
        apply ih
        simp only [List.map_cons, List.mem_cons] at h
        rcases h with h | h
        · exfalso
          rw [h] at hk
          simp at hk
        · exact h
      · rfl

/-- The main invariant of the `substitute` walk of
`normalization_remove_self_loops` over one expression.  `n₀` is the model
variable count at entry to the whole pass; `vs` is the walked snapshot of
the expression variable list.  The conclusions: the variable table, the
companion mapping and the journal only grow (the journal by exactly the
`ADD` records of the new mapping entries); the mapping bookkeeping stays
well formed; every surviving self-key already existed and its variable was
not walked; every walked self-looping variable `v` ends with its self term
moved onto the cross pair `(v, v')`; keys outside the walked set keep their
bias; earlier cached companions stay cached; the linear part only grows by
zero-bias companion registrations; the offset is untouched. -/
theorem slGo_spec (n₀ : Nat) (vs : List Nat) (acc : SLAcc) (e : Expr)
    (hA1 : n₀ ≤ acc.varinfo.length)
    (hA2 : ∀ p ∈ acc.mapping,
      p.1 < n₀ ∧ n₀ ≤ p.2 ∧ p.2 < acc.varinfo.length)
    (hA3 : (acc.mapping.map Prod.fst).Nodup)
    (hA5 : ∀ p ∈ acc.mapping,
      acc.varinfo.getD p.2 dVinfo = acc.varinfo.getD p.1 dVinfo)
    (hvs : vs.Nodup)
    (hvsn : ∀ v ∈ vs, v < n₀)
    (hK2 : ∀ k ∈ e.quad.map Prod.fst, k.1 = k.2 → k.1 ∈ vs)
    (hK3 : ∀ k ∈ e.quad.map Prod.fst, n₀ ≤ k.2 → k.1 ∉ vs) :
    ∀ acc' e', slGo acc e vs = (acc', e') →
    ((∃ extV, acc'.varinfo = acc.varinfo ++ extV) ∧
     (∃ extM, acc'.mapping = acc.mapping ++ extM ∧
       acc'.transforms = acc.transforms ++
         extM.map (fun p => Transform.add p.2)) ∧
     n₀ ≤ acc'.varinfo.length ∧
     (∀ p ∈ acc'.mapping,
       p.1 < n₀ ∧ n₀ ≤ p.2 ∧ p.2 < acc'.varinfo.length) ∧
     (acc'.mapping.map Prod.fst).Nodup ∧
     (∀ p ∈ acc'.mapping,
       acc'.varinfo.getD p.2 dVinfo = acc'.varinfo.getD p.1 dVinfo) ∧
     (∀ k ∈ e'.quad.map Prod.fst, k.1 = k.2 →
       k ∈ e.quad.map Prod.fst ∧ k.1 ∉ vs) ∧
     (∀ v ∈ vs, e.hasInteraction v v = true →
       ∃ w, acc'.mapping.lookup v = some w ∧ n₀ ≤ w ∧
         e'.quadratic v w = e.quadratic v v) ∧
     (∀ x y, x ∉ vs → y ∉ vs →
       e'.quad.lookup (qkey x y) = e.quad.lookup (qkey x y)) ∧
     (∀ u w, acc.mapping.lookup u = some w →
       acc'.mapping.lookup u = some w) ∧
     (∃ extL, e'.linear = e.linear ++ extL ∧ ∀ q ∈ extL, q.2 = F.fin 0) ∧
     e'.offset = e.offset) := by
  induction vs generalizing acc e with
  | nil =>
      intro acc' e' heq
      injection heq with h1 h2
      subst h1
      subst h2
      refine ⟨⟨[], by simp⟩, ⟨[], by simp, by simp⟩, hA1, hA2, hA3, hA5,
        ?_, ?_, fun x y _ _ => rfl, fun u w h => h, ⟨[], by simp, by simp⟩,
        rfl⟩
      · intro k hk hkk
        exact ⟨hk, List.not_mem_nil _⟩
      · intro v hv
        exact absurd hv (List.not_mem_nil v)
  | cons v vs' ih =>
      intro acc' e' heq
      have hvlt : v < n₀ := hvsn v (List.mem_cons_self v vs')
      have hvnotvs' : v ∉ vs' := (List.nodup_cons.mp hvs).1
      have hvs' : vs'.Nodup := (List.nodup_cons.mp hvs).2
      have hvsn' : ∀ u ∈ vs', u < n₀ :=
        fun u hu => hvsn u (List.mem_cons_of_mem v hu)
      by_cases hI : e.hasInteraction v v = true
      · -- the self-loop branch
        obtain ⟨hw_n₀, hw_lk, ⟨extV₁, hextV₁⟩, ⟨extM₁, hextM₁, hextT₁⟩,
          hA1₁, hA2₁, hA3₁, hA5₁, hstab₁⟩ :=
          slFresh_spec n₀ acc v hA1 hA2 hA3 hA5 hvlt
        have hrec : slGo (slFresh acc v).1
            ((e.addQuadratic v (slFresh acc v).2
              (e.quadratic v v)).removeInteraction v v) vs' = (acc', e') := by
          rw [← heq]
          simp only [slGo, hI, if_true]
        have hvltw : v < (slFresh acc v).2 := Nat.lt_of_lt_of_le hvlt hw_n₀
        have hqvw : qkey v (slFresh acc v).2 = (v, (slFresh acc v).2) :=
          qkey_of_le (Nat.le_of_lt hvltw)
        have hkey_not : ((v, (slFresh acc v).2)) ∉ e.quad.map Prod.fst := by
          intro hmem
          exact (hK3 _ hmem hw_n₀) (List.mem_cons_self v vs')
        have hIvw : e.hasInteraction v (slFresh acc v).2 = false := by
          show (e.quad.lookup (qkey v (slFresh acc v).2)).isSome = false
          rw [hqvw, lookup_none_of_not_key hkey_not]
          rfl
        have hne_vw_vv : qkey v (slFresh acc v).2 ≠ qkey v v := by
          rw [hqvw, qkey_self]
          intro hcontra
          have := congrArg Prod.snd hcontra
          simp only [] at this
          omega
        have he₁_vw : ((e.addQuadratic v (slFresh acc v).2
            (e.quadratic v v)).removeInteraction v v).quad.lookup
              (qkey v (slFresh acc v).2) = some (e.quadratic v v) := by
          rw [lookupQ_removeInteraction_ne _ _ _ _ _ hne_vw_vv,
            lookupQ_addQuadratic_new e v (slFresh acc v).2 _ hIvw]
        have he₁_self_none : ((e.addQuadratic v (slFresh acc v).2
            (e.quadratic v v)).removeInteraction v v).quad.lookup
              ((v, v)) = none := by
          have h := lookupQ_removeInteraction_self
            (e.addQuadratic v (slFresh acc v).2 (e.quadratic v v)) v v
          rw [qkey_self] at h
          exact h
        have he₁_nokey_vv : ((v, v)) ∉ ((e.addQuadratic v (slFresh acc v).2
            (e.quadratic v v)).removeInteraction v v).quad.map Prod.fst :=
          lookup_none_not_key he₁_self_none
        have he₁_keys : ∀ k ∈ ((e.addQuadratic v (slFresh acc v).2
            (e.quadratic v v)).removeInteraction v v).quad.map Prod.fst,
            k ∈ e.quad.map Prod.fst ∨ k = (v, (slFresh acc v).2) := by
          intro k hk
          have h1 := keys_removeInteraction_subset _ v v hk
          have h2 := keys_addQuadratic_subset e v (slFresh acc v).2 _ h1
          rcases h2 with h | h
          · exact Or.inl h
          · right
            rw [h, hqvw]
        have he₁_stable : ∀ x y, qkey x y ≠ qkey v v →
            qkey x y ≠ qkey v (slFresh acc v).2 →
            ((e.addQuadratic v (slFresh acc v).2
              (e.quadratic v v)).removeInteraction v v).quad.lookup
                (qkey x y) = e.quad.lookup (qkey x y) := by
          intro x y h1 h2
          rw [lookupQ_removeInteraction_ne _ _ _ _ _ h1,
            lookupQ_addQuadratic_ne _ _ _ _ _ _ h2]
        have hK2' : ∀ k ∈ ((e.addQuadratic v (slFresh acc v).2
            (e.quadratic v v)).removeInteraction v v).quad.map Prod.fst,
            k.1 = k.2 → k.1 ∈ vs' := by
          intro k hk hkk
          rcases he₁_keys k hk with hke | hkw
          · have hmem := hK2 k hke hkk
            rcases List.mem_cons.mp hmem with h0 | h0
            · exfalso
              have hkvv : k = ((v, v)) := by
                obtain ⟨k1, k2⟩ := k
                simp only [] at hkk h0
                rw [Prod.ext_iff]
                constructor
                · exact h0
                · simp only []
                  omega
              rw [hkvv] at hk
              exact he₁_nokey_vv hk
            · exact h0
          · exfalso
            rw [hkw] at hkk
            simp only [] at hkk
            omega
        have hK3' : ∀ k ∈ ((e.addQuadratic v (slFresh acc v).2
            (e.quadratic v v)).removeInteraction v v).quad.map Prod.fst,
            n₀ ≤ k.2 → k.1 ∉ vs' := by
          intro k hk hk2
          rcases he₁_keys k hk with hke | hkw
          · intro hmem
            exact (hK3 k hke hk2) (List.mem_cons_of_mem v hmem)
          · rw [hkw]
            intro hmem
            exact hvnotvs' hmem
        obtain ⟨⟨extV₂, hextV₂⟩, ⟨extM₂, hextM₂, hextT₂⟩, hA1₂, hA2₂, hA3₂,
          hA5₂, hself₂, hcross₂, hqstab₂, hmstab₂, ⟨extL₂, hextL₂, hextLz₂⟩,
          hoff₂⟩ :=
          ih (slFresh acc v).1 _ hA1₁ hA2₁ hA3₁ hA5₁ hvs' hvsn' hK2' hK3'
            acc' e' hrec
        have hwnot : (slFresh acc v).2 ∉ vs' := by
          intro hmem
          exact absurd (hvsn' _ hmem) (Nat.not_lt.mpr hw_n₀)
        refine ⟨?_, ?_, hA1₂, hA2₂, hA3₂, hA5₂, ?_, ?_, ?_, ?_, ?_, ?_⟩
        · exact ⟨extV₁ ++ extV₂, by rw [hextV₂, hextV₁, List.append_assoc]⟩
        · refine ⟨extM₁ ++ extM₂, by rw [hextM₂, hextM₁, List.append_assoc],
            ?_⟩
          rw [hextT₂, hextT₁, List.map_append, List.append_assoc]
        · intro k hk hkk
          obtain ⟨hke₁, hknot⟩ := hself₂ k hk hkk
          rcases he₁_keys k hke₁ with hke | hkw
          · refine ⟨hke, ?_⟩
            intro hmem
            rcases List.mem_cons.mp hmem with h0 | h0
            · have hkvv : k = ((v, v)) := by
                obtain ⟨k1, k2⟩ := k
                simp only [] at hkk h0
                rw [Prod.ext_iff]
                exact ⟨h0, by simp only []; omega⟩
              rw [hkvv] at hke₁
              exact he₁_nokey_vv hke₁
            · exact hknot h0
          · exfalso
            rw [hkw] at hkk
            simp only [] at hkk
            omega
        · intro v₀ hv₀ hIv₀
          rcases List.mem_cons.mp hv₀ with h0 | h0
          · subst h0
            refine ⟨(slFresh acc v₀).2, hmstab₂ _ _ hw_lk, hw_n₀, ?_⟩
            show ((e'.quad.lookup (qkey v₀ (slFresh acc v₀).2)).getD
              (F.fin 0)) = _
            rw [hqstab₂ v₀ (slFresh acc v₀).2 hvnotvs' hwnot, he₁_vw]
            rfl
          · have hv₀v : v₀ ≠ v := fun hc => hvnotvs' (hc ▸ h0)
            have hne_a : qkey v₀ v₀ ≠ qkey v v := by
              rw [qkey_self, qkey_self]
              intro hcontra
              exact hv₀v (congrArg Prod.fst hcontra)
            have hne_b : qkey v₀ v₀ ≠ qkey v (slFresh acc v).2 := by
              rw [qkey_self, hqvw]
              intro hcontra
              exact hv₀v (congrArg Prod.fst hcontra)
            have heq₁ := he₁_stable v₀ v₀ hne_a hne_b
            have hIe₁ : ((e.addQuadratic v (slFresh acc v).2
                (e.quadratic v v)).removeInteraction v v).hasInteraction
                  v₀ v₀ = true := by
              show ((((e.addQuadratic v (slFresh acc v).2
                (e.quadratic v v)).removeInteraction v v)).quad.lookup
                  (qkey v₀ v₀)).isSome = true
              rw [heq₁]
              exact hIv₀
            obtain ⟨w', hw'lk, hw'n₀, hw'q⟩ := hcross₂ v₀ h0 hIe₁
            refine ⟨w', hw'lk, hw'n₀, ?_⟩
            rw [hw'q]
            show ((((e.addQuadratic v (slFresh acc v).2
              (e.quadratic v v)).removeInteraction v v)).quad.lookup
                (qkey v₀ v₀)).getD (F.fin 0) =
              (e.quad.lookup (qkey v₀ v₀)).getD (F.fin 0)
            rw [heq₁]
        · intro x y hx hy
          have hx' : x ∉ vs' := fun hm => hx (List.mem_cons_of_mem v hm)
          have hy' : y ∉ vs' := fun hm => hy (List.mem_cons_of_mem v hm)
          have hxv : x ≠ v := fun hc => hx (hc ▸ List.mem_cons_self v vs')
          have hyv : y ≠ v := fun hc => hy (hc ▸ List.mem_cons_self v vs')
          have h1 : qkey x y ≠ qkey v v := by
            rw [qkey_self]
            intro hc
            rcases qkey_eq_pair_iff.mp hc with ⟨ha, _, _⟩ | ⟨_, hb, _⟩
            · exact hxv ha
            · exact hxv hb
          have h2 : qkey x y ≠ qkey v (slFresh acc v).2 := by
            rw [hqvw]
            intro hc
            rcases qkey_eq_pair_iff.mp hc with ⟨ha, _, _⟩ | ⟨ha, _, _⟩
            · exact hxv ha
            · exact hyv ha
          rw [hqstab₂ x y hx' hy', he₁_stable x y h1 h2]
        · exact fun u w h => hmstab₂ u w (hstab₁ u w h)
        · obtain ⟨extA, hA, hAz⟩ :=
            linear_addQuadratic e v (slFresh acc v).2 (e.quadratic v v)
          refine ⟨extA ++ extL₂, ?_, ?_⟩
          · rw [hextL₂]
            show (e.addQuadratic v (slFresh acc v).2
              (e.quadratic v v)).linear ++ extL₂ = _
            rw [hA, List.append_assoc]
          · intro q hq
            rcases List.mem_append.mp hq with h | h
            · exact hAz q h
            · exact hextLz₂ q h
        · rw [hoff₂]
          show (e.addQuadratic v (slFresh acc v).2
            (e.quadratic v v)).offset = e.offset
          exact offset_addQuadratic e v (slFresh acc v).2 (e.quadratic v v)
      · -- no self-loop at the head: the step is a no-op
        have hIf : e.hasInteraction v v = false := by
          revert hI
          cases e.hasInteraction v v <;> simp
        have hrec : slGo acc e vs' = (acc', e') := by
          rw [← heq]
          simp only [slGo, hIf, Bool.false_eq_true, if_false]
        have hnokey_vv : ((v, v)) ∉ e.quad.map Prod.fst := by
          intro hmem
          apply hI
          show (e.quad.lookup (qkey v v)).isSome = true
          rw [qkey_self]
          exact lookup_isSome_of_key_mem hmem
        have hK2'' : ∀ k ∈ e.quad.map Prod.fst, k.1 = k.2 → k.1 ∈ vs' := by
          intro k hk hkk
          rcases List.mem_cons.mp (hK2 k hk hkk) with h0 | h0
          · exfalso
            have hkvv : k = ((v, v)) := Prod.ext_iff.mpr ⟨h0, hkk ▸ h0⟩
            exact hnokey_vv (hkvv ▸ hk)
          · exact h0
        have hK3'' : ∀ k ∈ e.quad.map Prod.fst, n₀ ≤ k.2 → k.1 ∉ vs' :=
          fun k hk h2 hm => (hK3 k hk h2) (List.mem_cons_of_mem v hm)
        obtain ⟨c1, c2, c3, c4, c5, c6, c7, c8, c9, c10, c11, c12⟩ :=
          ih acc e hA1 hA2 hA3 hA5 hvs' hvsn' hK2'' hK3'' acc' e' hrec
        refine ⟨c1, c2, c3, c4, c5, c6, ?_, ?_, ?_, c10, c11, c12⟩
        · intro k hk hkk
          obtain ⟨hke, hknot⟩ := c7 k hk hkk
          refine ⟨hke, ?_⟩
          intro hmem
          rcases List.mem_cons.mp hmem with h0 | h0
          · have hkvv : k = ((v, v)) := Prod.ext_iff.mpr ⟨h0, hkk ▸ h0⟩
            exact hnokey_vv (hkvv ▸ hke)
          · exact hknot h0
        · intro v₀ hv₀ hIv₀
          rcases List.mem_cons.mp hv₀ with h0 | h0
          · subst h0
            exact absurd hIv₀ hI
          · exact c8 v₀ h0 hIv₀
        · intro x y hx hy
          exact c9 x y (fun hm => hx (List.mem_cons_of_mem v hm))
            (fun hm => hy (List.mem_cons_of_mem v hm))

/-- The well-formedness a dimod expression guarantees on entry to
`normalization_remove_self_loops`: distinct referenced variables, all
within the model variable table, and interactions only among referenced
variables. -/
def Expr.SLWF (n : Nat) (e : Expr) : Prop :=
  e.vars.Nodup ∧ (∀ v ∈ e.vars, v < n) ∧
  (∀ k ∈ e.quad.map Prod.fst, k.1 ∈ e.vars ∧ k.2 ∈ e.vars)

/-- Model-level well-formedness: every expression is well formed. -/
def CQM.SLWF (m : CQM) : Prop :=
  m.objective.SLWF m.numVariables ∧
  ∀ c ∈ m.constraints, c.toExpr.SLWF m.numVariables

/-- `slGo` applied to one well-formed expression, packaged for the
constraint fold: entry hypotheses from the expression itself. -/
theorem slGo_expr_spec (n₀ : Nat) (acc : SLAcc) (e : Expr)
    (hA1 : n₀ ≤ acc.varinfo.length)
    (hA2 : ∀ p ∈ acc.mapping,
      p.1 < n₀ ∧ n₀ ≤ p.2 ∧ p.2 < acc.varinfo.length)
    (hA3 : (acc.mapping.map Prod.fst).Nodup)
    (hA5 : ∀ p ∈ acc.mapping,
      acc.varinfo.getD p.2 dVinfo = acc.varinfo.getD p.1 dVinfo)
    (hwf : e.SLWF n₀) :
    ∀ acc' e', slGo acc e e.vars = (acc', e') →
    ((∃ extV, acc'.varinfo = acc.varinfo ++ extV) ∧
     (∃ extM, acc'.mapping = acc.mapping ++ extM ∧
       acc'.transforms = acc.transforms ++
         extM.map (fun p => Transform.add p.2)) ∧
     n₀ ≤ acc'.varinfo.length ∧
     (∀ p ∈ acc'.mapping,
       p.1 < n₀ ∧ n₀ ≤ p.2 ∧ p.2 < acc'.varinfo.length) ∧
     (acc'.mapping.map Prod.fst).Nodup ∧
     (∀ p ∈ acc'.mapping,
       acc'.varinfo.getD p.2 dVinfo = acc'.varinfo.getD p.1 dVinfo) ∧
     (∀ u, e'.hasInteraction u u = false) ∧
     (∀ v, e.hasInteraction v v = true →
       ∃ w, acc'.mapping.lookup v = some w ∧ n₀ ≤ w ∧
         e'.quadratic v w = e.quadratic v v) ∧
     (∀ u w, acc.mapping.lookup u = some w →
       acc'.mapping.lookup u = some w) ∧
     e'.offset = e.offset) := by
  obtain ⟨hnd, hlt, hkeys⟩ := hwf
  intro acc' e' heq
  have hK2 : ∀ k ∈ e.quad.map Prod.fst, k.1 = k.2 → k.1 ∈ e.vars :=
    fun k hk _ => (hkeys k hk).1
  have hK3 : ∀ k ∈ e.quad.map Prod.fst, n₀ ≤ k.2 → k.1 ∉ e.vars := by
    intro k hk h2
    exact absurd h2 (Nat.not_le.mpr (hlt k.2 (hkeys k hk).2))
  obtain ⟨c1, c2, c3, c4, c5, c6, c7, c8, c9, c10, c11, c12⟩ :=
    slGo_spec n₀ e.vars acc e hA1 hA2 hA3 hA5 hnd hlt hK2 hK3 acc' e' heq
  refine ⟨c1, c2, c3, c4, c5, c6, ?_, ?_, c10, c12⟩
  · intro u
    cases hu : e'.hasInteraction u u
    · rfl
    · exfalso
      have hmem : ((u, u)) ∈ e'.quad.map Prod.fst := by
        have : (e'.quad.lookup (qkey u u)).isSome = true := hu
        rw [qkey_self] at this
        exact lookup_isSome_key_mem this
      obtain ⟨hke, hknot⟩ := c7 ((u, u)) hmem rfl
      exact hknot ((hkeys ((u, u)) hke).1)
  · intro v hIv
    have hmem : ((v, v)) ∈ e.quad.map Prod.fst := by
      have : (e.quad.lookup (qkey v v)).isSome = true := hIv
      rw [qkey_self] at this
      exact lookup_isSome_key_mem this
    exact c8 v ((hkeys ((v, v)) hmem).1) hIv

/-- The constraint fold of `normalization_remove_self_loops`: each
constraint is rewritten in place (metadata untouched), threading the
companion state. -/
theorem slConstraints_spec (n₀ : Nat) (cs : List Constraint) (acc : SLAcc)
    (hA1 : n₀ ≤ acc.varinfo.length)
    (hA2 : ∀ p ∈ acc.mapping,
      p.1 < n₀ ∧ n₀ ≤ p.2 ∧ p.2 < acc.varinfo.length)
    (hA3 : (acc.mapping.map Prod.fst).Nodup)
    (hA5 : ∀ p ∈ acc.mapping,
      acc.varinfo.getD p.2 dVinfo = acc.varinfo.getD p.1 dVinfo)
    (hwf : ∀ c ∈ cs, c.toExpr.SLWF n₀) :
    ∀ acc' cs', slConstraints acc cs = (acc', cs') →
    ((∃ extV, acc'.varinfo = acc.varinfo ++ extV) ∧
     (∃ extM, acc'.mapping = acc.mapping ++ extM ∧
       acc'.transforms = acc.transforms ++
         extM.map (fun p => Transform.add p.2)) ∧
     n₀ ≤ acc'.varinfo.length ∧
     (∀ p ∈ acc'.mapping,
       p.1 < n₀ ∧ n₀ ≤ p.2 ∧ p.2 < acc'.varinfo.length) ∧
     (acc'.mapping.map Prod.fst).Nodup ∧
     (∀ p ∈ acc'.mapping,
       acc'.varinfo.getD p.2 dVinfo = acc'.varinfo.getD p.1 dVinfo) ∧
     (∀ u w, acc.mapping.lookup u = some w →
       acc'.mapping.lookup u = some w) ∧
     cs'.length = cs.length ∧
     (∀ i, i < cs.length →
       ((cs'.getD i default).sense = (cs.getD i default).sense ∧
        (cs'.getD i default).rhs = (cs.getD i default).rhs ∧
        (cs'.getD i default).soft = (cs.getD i default).soft ∧
        (cs'.getD i default).discrete = (cs.getD i default).discrete ∧
        (cs'.getD i default).offset = (cs.getD i default).offset ∧
        (∀ u, (cs'.getD i default).toExpr.hasInteraction u u = false) ∧
        (∀ v, (cs.getD i default).toExpr.hasInteraction v v = true →
          ∃ w, acc'.mapping.lookup v = some w ∧ n₀ ≤ w ∧
            (cs'.getD i default).toExpr.quadratic v w =
              (cs.getD i default).toExpr.quadratic v v)))) := by
  induction cs generalizing acc with
  | nil =>
      intro acc' cs' heq
      injection heq with h1 h2
      subst h1
      subst h2
      refine ⟨⟨[], by simp⟩, ⟨[], by simp, by simp⟩, hA1, hA2, hA3, hA5,
        fun u w h => h, rfl, ?_⟩
      intro i hi
      exact absurd hi (by simp)
  | cons c rest ih =>
      intro acc' cs' heq
      have hstep : slConstraints acc (c :: rest) =
          ((slConstraints (slGo acc c.toExpr c.toExpr.vars).1 rest).1,
           { c with toExpr := (slGo acc c.toExpr c.toExpr.vars).2 } ::
             (slConstraints (slGo acc c.toExpr c.toExpr.vars).1 rest).2) := by
        simp only [slConstraints]
      rw [hstep] at heq
      injection heq with h1 h2
      obtain ⟨g1, g2, g3, g4, g5, g6, g7, g8, g9, g10⟩ :=
        slGo_expr_spec n₀ acc c.toExpr hA1 hA2 hA3 hA5
          (hwf c (List.mem_cons_self c rest))
          (slGo acc c.toExpr c.toExpr.vars).1
          (slGo acc c.toExpr c.toExpr.vars).2 rfl
      obtain ⟨k1, k2, k3, k4, k5, k6, k7, k8, k9⟩ :=
        ih (slGo acc c.toExpr c.toExpr.vars).1 g3 g4 g5 g6
          (fun c' hc' => hwf c' (List.mem_cons_of_mem c hc'))
          (slConstraints (slGo acc c.toExpr c.toExpr.vars).1 rest).1
          (slConstraints (slGo acc c.toExpr c.toExpr.vars).1 rest).2 rfl
      subst h1
      subst h2
      refine ⟨?_, ?_, k3, k4, k5, k6, ?_, ?_, ?_⟩
      · obtain ⟨eV1, heV1⟩ := g1
        obtain ⟨eV2, heV2⟩ := k1
        exact ⟨eV1 ++ eV2, by rw [heV2, heV1, List.append_assoc]⟩
      · obtain ⟨eM1, heM1, heT1⟩ := g2
        obtain ⟨eM2, heM2, heT2⟩ := k2
        refine ⟨eM1 ++ eM2, by rw [heM2, heM1, List.append_assoc], ?_⟩
        rw [heT2, heT1, List.map_append, List.append_assoc]
      · exact fun u w h => k7 u w (g9 u w h)
      · show _ + 1 = _ + 1
        rw [k8]
      · intro i hi
        cases i with
        | zero =>
            refine ⟨rfl, rfl, rfl, rfl, g10, g7, ?_⟩
            intro v hIv
            obtain ⟨w, hwlk, hwn, hwq⟩ := g8 v hIv
            exact ⟨w, k7 v w hwlk, hwn, hwq⟩
        | succ j =>
            have hj : j < rest.length := by
              simp only [List.length_cons] at hi
              omega
            exact k9 j hj

/-- C3: for every variable `v` with a self-interaction in any expression,
`normalization_remove_self_loops` allocates — at most once per `v`, even when
`v` self-loops in several expressions — a companion `v'` with the same
vartype and bounds (a fresh index past the original variables, journalled as
`ADD`); in every such expression the self term is replaced by the cross term
carrying the same bias; after all expressions are rewritten one linear
equality constraint `v − v' = 0` is appended per pair; afterwards no
expression contains a self-interaction. -/
theorem remove_self_loops_correct (m : CQM) (trans : List Transform)
    (hwf : m.SLWF) :
    ∀ m' trans' mapping changed,
      normalizationRemoveSelfLoops m trans = (m', trans', mapping, changed) →
      ((mapping.map Prod.fst).Nodup ∧
       (∀ p ∈ mapping, p.1 < m.numVariables ∧ m.numVariables ≤ p.2 ∧
         p.2 < m'.numVariables ∧
         m'.varinfo.getD p.2 dVinfo = m.varinfo.getD p.1 dVinfo) ∧
       (∃ ext, m'.varinfo = m.varinfo ++ ext) ∧
       trans' = trans ++ mapping.map (fun p => Transform.add p.2) ∧
       (∀ v, m.objective.hasInteraction v v = true →
         ∃ w, mapping.lookup v = some w ∧ m.numVariables ≤ w ∧
           m'.objective.quadratic v w = m.objective.quadratic v v) ∧
       (∀ u, m'.objective.hasInteraction u u = false) ∧
       (∃ rcs, m'.constraints = rcs ++ mapping.map (fun p : Nat × Nat =>
           mkLinearConstraint [p.1, p.2] [F.fin 1, F.fin (-1)]
             Sense.EQ (F.fin 0)) ∧
         rcs.length = m.constraints.length ∧
         (∀ i, i < m.constraints.length →
           ((rcs.getD i default).sense =
              (m.constraints.getD i default).sense ∧
            (rcs.getD i default).rhs = (m.constraints.getD i default).rhs ∧
            (rcs.getD i default).soft =
              (m.constraints.getD i default).soft ∧
            (rcs.getD i default).discrete =
              (m.constraints.getD i default).discrete ∧
            (rcs.getD i default).offset =
              (m.constraints.getD i default).offset ∧
            (∀ v, (m.constraints.getD i default).toExpr.hasInteraction v v
                = true →
              ∃ w, mapping.lookup v = some w ∧ m.numVariables ≤ w ∧
                (rcs.getD i default).toExpr.quadratic v w =
                  (m.constraints.getD i default).toExpr.quadratic v v)))) ∧
       (∀ c ∈ m'.constraints, ∀ u, c.toExpr.hasInteraction u u = false)) := by
  obtain ⟨hwfo, hwfc⟩ := hwf
  intro m' trans' mapping changed heq
  rcases hr1 : slGo ⟨m.varinfo, [], trans⟩ m.objective m.objective.vars
    with ⟨acc1, obj2⟩
  rcases hr2 : slConstraints acc1 m.constraints with ⟨acc2, cs2⟩
  obtain ⟨g1, g2, g3, g4, g5, g6, g7, g8, g9, g10⟩ :=
    slGo_expr_spec m.numVariables ⟨m.varinfo, [], trans⟩ m.objective
      (le_refl _)
      (fun p hp => absurd hp (List.not_mem_nil p))
      List.nodup_nil
      (fun p hp => absurd hp (List.not_mem_nil p))
      hwfo acc1 obj2 hr1
  obtain ⟨k1, k2, k3, k4, k5, k6, k7, k8, k9⟩ :=
    slConstraints_spec m.numVariables m.constraints acc1 g3 g4 g5 g6 hwfc
      acc2 cs2 hr2
  simp only [normalizationRemoveSelfLoops, hr1, hr2] at heq
  injection heq with hm' hrest
  injection hrest with htr hrest2
  injection hrest2 with hmap hch
  subst hm' htr hmap
  obtain ⟨eV1, heV1⟩ := g1
  obtain ⟨eV2, heV2⟩ := k1
  refine ⟨k5, ?_, ?_, ?_, ?_, g7, ?_, ?_⟩
  · intro p hp
    obtain ⟨h1, h2, h3⟩ := k4 p hp
    have hstab : acc2.varinfo.getD p.1 dVinfo = m.varinfo.getD p.1 dVinfo := by
      rw [heV2, heV1]
      show ((m.varinfo ++ eV1) ++ eV2).getD p.1 dVinfo =
        m.varinfo.getD p.1 dVinfo
      rw [List.getD_append _ _ _ _
          (by rw [List.length_append]
              exact Nat.lt_of_lt_of_le h1 (Nat.le_add_right _ _)),
        List.getD_append _ _ _ _ h1]
    exact ⟨h1, h2, h3, (k6 p hp).trans hstab⟩
  · refine ⟨eV1 ++ eV2, ?_⟩
    show acc2.varinfo = m.varinfo ++ (eV1 ++ eV2)
    rw [heV2, heV1]
    show (m.varinfo ++ eV1) ++ eV2 = m.varinfo ++ (eV1 ++ eV2)
    exact List.append_assoc _ _ _
  · obtain ⟨eM1, heM1, heT1⟩ := g2
    obtain ⟨eM2, heM2, heT2⟩ := k2
    rw [heT2, heT1, heM2, heM1]
    show (trans ++ eM1.map (fun p : Nat × Nat => Transform.add p.2)) ++
        eM2.map (fun p : Nat × Nat => Transform.add p.2) =
      trans ++ (([] ++ eM1) ++ eM2).map (fun p : Nat × Nat => Transform.add p.2)
    rw [List.nil_append, List.map_append, List.append_assoc]
  · intro v hIv
    obtain ⟨w, hwlk, hwn, hwq⟩ := g8 v hIv
    exact ⟨w, k7 v w hwlk, hwn, hwq⟩
  · refine ⟨cs2, rfl, k8, ?_⟩
    intro i hi
    obtain ⟨s1, s2, s3, s4, s5, s6, s7⟩ := k9 i hi
    exact ⟨s1, s2, s3, s4, s5, s7⟩
  · intro c hc u
    rcases List.mem_append.mp hc with hcl | hcr
    · obtain ⟨i, hi, hci⟩ := List.mem_iff_getElem.mp hcl
      have hc' : c = cs2.getD i default := by
        rw [List.getD_eq_getElem _ _ hi]
        exact hci.symm
      have hi' : i < m.constraints.length := k8 ▸ hi
      rw [hc']
      exact ((k9 i hi').2.2.2.2.2.1) u
    · obtain ⟨p, hp, hpc⟩ := List.mem_map.mp hcr
      rw [← hpc]
      rfl

/-- Concrete input for exercising self-loop removal: one binary variable
with objective `3·x + 2·x·x` and no constraints. -/
def slSelfLoopModel : CQM :=
  ⟨[⟨Vartype.BINARY, F.fin 0, F.fin 1⟩],
   ⟨[(0, F.fin 3)], [((0, 0), F.fin 2)], F.fin 0⟩,
   []⟩

theorem remove_self_loops_correct_witness :
    slSelfLoopModel.SLWF ∧
    (normalizationRemoveSelfLoops slSelfLoopModel
        []).1.objective.hasInteraction 0 0 = false ∧
    (List.map Prod.fst
      (normalizationRemoveSelfLoops slSelfLoopModel []).2.2.1).Nodup :=
  ⟨by unfold CQM.SLWF Expr.SLWF; decide,
   (remove_self_loops_correct slSelfLoopModel []
      (by unfold CQM.SLWF Expr.SLWF; decide)
      (normalizationRemoveSelfLoops slSelfLoopModel []).1
      (normalizationRemoveSelfLoops slSelfLoopModel []).2.1
      (normalizationRemoveSelfLoops slSelfLoopModel []).2.2.1
      (normalizationRemoveSelfLoops slSelfLoopModel []).2.2.2
      rfl).2.2.2.2.2.1 0,
   (remove_self_loops_correct slSelfLoopModel []
      (by unfold CQM.SLWF Expr.SLWF; decide)
      (normalizationRemoveSelfLoops slSelfLoopModel []).1
      (normalizationRemoveSelfLoops slSelfLoopModel []).2.1
      (normalizationRemoveSelfLoops slSelfLoopModel []).2.2.1
      (normalizationRemoveSelfLoops slSelfLoopModel []).2.2.2
      rfl).1⟩

end DwavePresolve
